import Mathlib

/-!
# Terminal emulator core (`src/terminal.cpp`)

A shallow embedding of the `Cell` / `Row` / `Emulator` grid engine.

Modelling conventions.

* `int` members (`cursor_col`, `cursor_row`, `combining_char_col`,
  `combining_char_row`, the parsed parameters) are `Int`.  The header that declares
  them is not part of the sources; the specification calls them signed integers.
  Signed overflow of the cursor arithmetic is not modelled.
* `width` and `height` are initialised from `size_t` constructor arguments and are `Nat`.
* `wchar_t` values are `Nat` code points.
* A `Cell *` is a `CellPtr`: the serial number of the `Row` object that owns the cell
  and the column of the cell in it.  Rows are numbered in the order in which they are
  put into `rows`; the deque keeps the count of the rows popped from its front, so that
  the row at index `i` is the row with serial number `popped + i`.  A pointer to a cell
  of a popped row, or to a cell that was never created, cannot be dereferenced.
* A failed `assert`, undefined behaviour (an index out of range, a pointer that cannot
  be dereferenced, `pop_front` on an empty deque) and unbounded recursion are the three
  kinds of `Fault`; every operation that can hit one returns `Except Fault _`.
* `wcwidth` and `LONG_MAX` come from the C library and are parameters.
-/

namespace Terminal

/-- The ways in which a call can fail to return normally. -/
inductive Fault where
  /-- The `assert` at the given line of `terminal.cpp` failed. -/
  | assertion (line : Nat)
  /-- Undefined behaviour: index out of range, invalid pointer, `pop_front` on empty. -/
  | undefined
  /-- The recursion of `Cell::reset` does not come back. -/
  | diverges
  deriving DecidableEq, Repr

/-- A `Cell *`: serial number of the owning row object and column in that row. -/
structure CellPtr where
  row : Nat
  col : Nat
  deriving DecidableEq, Repr

/-- The class `Cell`. -/
structure Cell where
  overlapping_cell : Option CellPtr
  contents : List Nat
  overlapped_cells : List CellPtr
  deriving DecidableEq, Repr

/-- The constructor `Cell::Cell()`. -/
def Cell.new : Cell :=
  { overlapping_cell := none, contents := [], overlapped_cells := [] }

/-- The class `Row`. -/
structure Row where
  cells : List Cell
  deriving DecidableEq, Repr

/-- The constructor `Row::Row( size_t s_width )`. -/
def Row.new (s_width : Nat) : Row :=
  { cells := List.replicate s_width Cell.new }

/-- A `std::deque<Row>` whose elements keep their identity: `popped` counts the rows
removed from the front, so `elems[i]` is the row object number `popped + i`. -/
structure Deque where
  popped : Nat
  elems : List Row
  deriving DecidableEq, Repr

/-- The call `rows.pop_front()`. -/
def Deque.pop_front (d : Deque) : Except Fault Deque :=
  match d.elems with
  | [] => .error .undefined
  | _ :: rest => .ok { popped := d.popped + 1, elems := rest }

/-- The call `rows.push_back( r )`. -/
def Deque.push_back (d : Deque) (r : Row) : Deque :=
  { d with elems := d.elems ++ [r] }

/-- The expression `&rows[ r ].cells[ c ]`: both subscripts must be in range. -/
def Deque.addr (d : Deque) (r c : Int) : Except Fault CellPtr :=
  if r < 0 ∨ c < 0 then .error .undefined
  else
    match d.elems[r.toNat]? with
    | none => .error .undefined
    | some row =>
      if c.toNat < row.cells.length then .ok { row := d.popped + r.toNat, col := c.toNat }
      else .error .undefined

/-- Reading `*p`.  The pointer must designate a cell of a row that is in the deque. -/
def Deque.load (d : Deque) (p : CellPtr) : Except Fault Cell :=
  if p.row < d.popped then .error .undefined
  else
    match d.elems[p.row - d.popped]? with
    | none => .error .undefined
    | some row =>
      match row.cells[p.col]? with
      | none => .error .undefined
      | some c => .ok c

/-- Updating members of `*p` in place: the cell becomes `f` of what it was. -/
def Deque.modify (d : Deque) (p : CellPtr) (f : Cell → Cell) : Except Fault Deque :=
  if p.row < d.popped then .error .undefined
  else
    match d.elems[p.row - d.popped]? with
    | none => .error .undefined
    | some row =>
      match row.cells[p.col]? with
      | none => .error .undefined
      | some c =>
        .ok { d with elems := d.elems.set (p.row - d.popped) { cells := row.cells.set p.col (f c) } }

/-- Number of cells owned by the rows of the deque. -/
def Deque.cell_count (d : Deque) : Nat :=
  (d.elems.map (fun row => row.cells.length)).sum

/-- The loop of `Cell::reset` over `overlapped_cells`: for each element `q`, clear
`q->overlapping_cell` and call `reset` on `q` (the callback `f`). -/
def Cell.reset_each (f : CellPtr → Deque → Except Fault Deque) :
    List CellPtr → Deque → Except Fault Deque
  | [], d => .ok d
  | q :: qs, d =>
    match d.modify q (fun t => { t with overlapping_cell := none }) with
    | .error x => .error x
    | .ok d1 =>
      match f q d1 with
      | .error x => .error x
      | .ok d2 => Cell.reset_each f qs d2

/-- The method `Cell::reset`, called on the cell `p` points to.  The first argument bounds
the depth of the recursion: at depth zero the call is given up as `Fault.diverges`.
The loop runs over the `overlapped_cells` read at entry: the vector of a cell is only
written by a call on that cell, and a nested call on a cell whose loop is still running
finds the same vector again and never returns. -/
def Cell.reset : Nat → CellPtr → Deque → Except Fault Deque
  | 0, _, _ => .error .diverges
  | fuel + 1, p, d =>
    match d.load p with
    | .error x => .error x
    | .ok c =>
      if c.overlapping_cell.isSome then
        if c.overlapped_cells.length = 0 then
          d.modify p (fun t => { t with contents := [] })
        else .error (.assertion 336)
      else
        match d.modify p (fun t => { t with contents := [] }) with
        | .error x => .error x
        | .ok d1 =>
          match Cell.reset_each (Cell.reset fuel) c.overlapped_cells d1 with
          | .error x => .error x
          | .ok d2 => d2.modify p (fun t => { t with overlapped_cells := [] })

/-- A decoded action (`Parser::Action`): the payload flag and the character. -/
structure Action where
  char_present : Bool
  ch : Nat
  deriving DecidableEq, Repr

/-- The class `Emulator` (the byte-level `parser` is external and left out). -/
structure Emulator where
  width : Nat
  height : Nat
  cursor_col : Int
  cursor_row : Int
  combining_char_col : Int
  combining_char_row : Int
  rows : Deque
  params : List Char
  dispatch_chars : List Char
  terminal_to_host : List Char
  errors : List Char
  parsed_params : List Int
  deriving DecidableEq, Repr

/-- The constructor `Emulator::Emulator( size_t s_width, size_t s_height )`. -/
def Emulator.new (s_width s_height : Nat) : Emulator :=
  { width := s_width, height := s_height,
    cursor_col := 0, cursor_row := 0,
    combining_char_col := 0, combining_char_row := 0,
    rows := { popped := 0, elems := List.replicate s_height (Row.new s_width) },
    params := [], dispatch_chars := [], terminal_to_host := [],
    errors := [], parsed_params := [] }

/-- The body of the `for` loop of `Emulator::scroll`, run `n` times. -/
def Emulator.scroll_loop : Nat → Emulator → Except Fault Emulator
  | 0, e => .ok e
  | n + 1, e =>
    match e.rows.pop_front with
    | .error f => .error f
    | .ok d =>
      Emulator.scroll_loop n
        { e with rows := d.push_back (Row.new e.width),
                 cursor_row := e.cursor_row - 1,
                 combining_char_row := e.combining_char_row - 1 }

/-- The method `Emulator::scroll( int N )`. -/
def Emulator.scroll (N : Int) (e : Emulator) : Except Fault Emulator :=
  if N = 0 then .ok e
  else if N > 0 then Emulator.scroll_loop N.toNat e
  else .ok e

/-- The method `Emulator::newgrapheme`. -/
def Emulator.newgrapheme (e : Emulator) : Emulator :=
  { e with combining_char_col := e.cursor_col, combining_char_row := e.cursor_row }

/-- The method `Emulator::autoscroll`. -/
def Emulator.autoscroll (e : Emulator) : Except Fault Emulator :=
  if e.cursor_row ≥ (e.height : Int) then
    e.scroll (e.cursor_row - (e.height : Int) + 1)
  else .ok e

/-- The method `Emulator::execute`. -/
def Emulator.execute (act : Action) (e : Emulator) : Except Fault Emulator :=
  if act.char_present = false then .error (.assertion 121)
  else if act.ch = 0x0a then
    Emulator.autoscroll { e with cursor_row := e.cursor_row + 1 }
  else if act.ch = 0x0d then .ok { e with cursor_col := 0 }
  else if act.ch = 0x08 then
    if e.cursor_col > 0 then
      .ok (Emulator.newgrapheme { e with cursor_col := e.cursor_col - 1 })
    else .ok e
  else .ok e

/-- The statements of `case 1: case 2:` in `Emulator::print`; `chwidth` is 1 or 2.
The recursion bound handed to `Cell::reset` is larger than the number of cells, so the
bound is only met when some cell is entered while a call on it is still running. -/
def Emulator.print_base (chwidth : Int) (ch : Nat) (e : Emulator) : Except Fault Emulator :=
  let e1 : Emulator :=
    if e.cursor_col ≥ (e.width : Int) then
      { e with cursor_col := 0, cursor_row := e.cursor_row + 1 }
    else e
  match e1.autoscroll with
  | .error x => .error x
  | .ok e2 =>
    match e2.rows.addr e2.cursor_row e2.cursor_col with
    | .error x => .error x
    | .ok this_cell =>
      match Cell.reset (e2.rows.cell_count + 1) this_cell e2.rows with
      | .error x => .error x
      | .ok d1 =>
        match d1.modify this_cell (fun t => { t with contents := t.contents ++ [ch] }) with
        | .error x => .error x
        | .ok d2 =>
          let e3 : Emulator := Emulator.newgrapheme { e2 with rows := d2 }
          if e3.cursor_col < (e3.width : Int) - 1 ∧ chwidth = 2 then
            match d2.addr e3.cursor_row (e3.cursor_col + 1) with
            | .error x => .error x
            | .ok next_cell =>
              match d2.modify this_cell
                  (fun t => { t with overlapped_cells := t.overlapped_cells ++ [next_cell] }) with
              | .error x => .error x
              | .ok d3 =>
                match d3.modify next_cell
                    (fun t => { t with overlapping_cell := some this_cell }) with
                | .error x => .error x
                | .ok d4 => .ok { e3 with rows := d4, cursor_col := e3.cursor_col + chwidth }
          else .ok { e3 with cursor_col := e3.cursor_col + chwidth }

/-- The statements of `case 0:` in `Emulator::print`. -/
def Emulator.print_combining (ch : Nat) (e : Emulator) : Except Fault Emulator :=
  match e.rows.addr e.combining_char_row e.combining_char_col with
  | .error x => .error x
  | .ok p =>
    match e.rows.load p with
    | .error x => .error x
    | .ok c =>
      if c.contents.length < 16 then
        match e.rows.modify p (fun t => { t with contents := t.contents ++ [ch] }) with
        | .error x => .error x
        | .ok d => .ok { e with rows := d }
      else .ok e

/-- The method `Emulator::print`; `wcwidth` is the C library function. -/
def Emulator.print (wcwidth : Nat → Int) (act : Action) (e : Emulator) :
    Except Fault Emulator :=
  if act.char_present = false then .error (.assertion 144)
  else if e.width = 0 ∨ e.height = 0 then .ok e
  else if ¬ (e.cursor_row < (e.height : Int)) then .error (.assertion 150)
  else if ¬ (e.cursor_row ≤ (e.width : Int)) then .error (.assertion 151)
  else
    let chwidth : Int := if act.ch = 0 then -1 else wcwidth act.ch
    if chwidth = 1 ∨ chwidth = 2 then e.print_base chwidth act.ch
    else if chwidth = 0 then e.print_combining act.ch
    else if chwidth = -1 then .ok e
    else .error (.assertion 188)

/-- The method `Emulator::param`. -/
def Emulator.param (act : Action) (e : Emulator) : Except Fault Emulator :=
  if act.char_present = false then .error (.assertion 238)
  else if ¬ (act.ch = 59 ∨ (48 ≤ act.ch ∧ act.ch ≤ 57)) then .error (.assertion 239)
  else if e.params.length < 100 then .ok { e with params := e.params ++ [Char.ofNat act.ch] }
  else .ok e

/-- The method `Emulator::clear`. -/
def Emulator.clear (e : Emulator) : Emulator :=
  { e with params := [], dispatch_chars := [] }

/-- The C library predicate `isspace` in the "C" locale. -/
def isspace (c : Char) : Bool :=
  c = ' ' || (9 ≤ c.toNat && c.toNat ≤ 13)

/-- The C library predicate `isdigit`. -/
def isdigit (c : Char) : Bool :=
  48 ≤ c.toNat && c.toNat ≤ 57

/-- What a call `strtol( nptr, &endptr, 10 )` yields: the returned `long`, the distance
`endptr - nptr`, and whether `errno` was set to `ERANGE`. -/
structure StrtolResult where
  value : Int
  consumed : Nat
  erange : Bool
  deriving DecidableEq, Repr

/-- Value of a run of decimal digits. -/
def decimal_value (digits : List Char) : Nat :=
  digits.foldl (fun acc c => 10 * acc + (c.toNat - 48)) 0

/-- The C library function `strtol` with base 10 on the string `nptr` (ISO C): white space
is skipped, a sign is optional, the longest run of digits is converted; with no digit
nothing is consumed and 0 is returned; a value outside `LONG_MIN .. LONG_MAX` is clamped
and reported as `ERANGE`.  `errno` is written in no other case. -/
def strtol (long_max : Nat) (nptr : List Char) : StrtolResult :=
  let blanks := nptr.takeWhile isspace
  let s1 := nptr.dropWhile isspace
  let negative : Bool := s1.head? = some '-'
  let sign_len : Nat := if s1.head? = some '-' ∨ s1.head? = some '+' then 1 else 0
  let digits := (s1.drop sign_len).takeWhile isdigit
  if digits.length = 0 then { value := 0, consumed := 0, erange := false }
  else
    let v : Int := if negative then - (decimal_value digits : Int) else (decimal_value digits : Int)
    let consumed := blanks.length + sign_len + digits.length
    if v > (long_max : Int) then { value := long_max, consumed := consumed, erange := true }
    else if v < - (long_max : Int) - 1 then
      { value := - (long_max : Int) - 1, consumed := consumed, erange := true }
    else { value := v, consumed := consumed, erange := false }

/-- The conversion of a `long` to `int` (32 bits, two's complement). -/
def long_to_int (v : Int) : Int :=
  (v + 2 ^ 31) % 2 ^ 32 - 2 ^ 31

/-- The block that `Emulator::parse_params` runs on a segment, in the loop and again
after it: `errno = 0`, `strtol`, `-1` when nothing was consumed, `push_back` when `errno`
is still 0. -/
def parse_segment (long_max : Nat) (segment_begin : List Char) (parsed : List Int) :
    List Int :=
  let r := strtol long_max segment_begin
  let val : Int := if r.consumed = 0 then -1 else long_to_int r.value
  if r.erange = false then parsed ++ [val] else parsed

/-- The `while ( 1 )` loop of `Emulator::parse_params` and the block after it.  The first
list is where `strchr` is looking for the next `;` from `segment_begin`; when it finds one
the segment is parsed and both pointers move past the `;`; when it reaches the end of the
string (`strchr` returns `NULL`) the loop is left and the last segment is parsed. -/
def parse_params_loop (long_max : Nat) : List Char → List Char → List Int → List Int
  | [], segment_begin, parsed => parse_segment long_max segment_begin parsed
  | c :: rest, segment_begin, parsed =>
    if c = ';' then
      parse_params_loop long_max rest rest (parse_segment long_max segment_begin parsed)
    else parse_params_loop long_max rest segment_begin parsed

/-- The method `Emulator::parse_params`; `long_max` is `LONG_MAX` of the platform. -/
def Emulator.parse_params (long_max : Nat) (e : Emulator) : Emulator :=
  { e with parsed_params := parse_params_loop long_max e.params e.params [] }

/-- The method `Emulator::getparam`. -/
def Emulator.getparam (e : Emulator) (N : Nat) (defaultval : Int) : Int :=
  let ret : Int :=
    if e.parsed_params.length > N then e.parsed_params.getD N defaultval else defaultval
  if ret < 1 then defaultval else ret

/-- The allocation shape of a deque: rows popped so far and the length of each row. -/
def Deque.shape (d : Deque) : Nat × List Nat :=
  (d.popped, d.elems.map (fun row => row.cells.length))

/-- Cell `c2` is `c1` with some of its members cleared. -/
def Cell.ClearedFrom (c2 c1 : Cell) : Prop :=
  (c2.overlapping_cell = c1.overlapping_cell ∨ c2.overlapping_cell = none) ∧
  (c2.contents = c1.contents ∨ c2.contents = []) ∧
  (c2.overlapped_cells = c1.overlapped_cells ∨ c2.overlapped_cells = [])

/-- Deque `d2` has the cells of `d1`, at the same addresses, with some members cleared. -/
def Deque.ClearedFrom (d2 d1 : Deque) : Prop :=
  d2.shape = d1.shape ∧
  ∀ q c, d1.load q = .ok c → ∃ c2, d2.load q = .ok c2 ∧ c2.ClearedFrom c

/-- The links of the deque are well founded: every pointer stored in an `overlapped_cells`
can be dereferenced and leads to a cell of smaller rank. -/
def Deque.Ranked (rk : CellPtr → Nat) (d : Deque) : Prop :=
  ∀ p c, d.load p = .ok c → ∀ q ∈ c.overlapped_cells, (∃ t, d.load q = .ok t) ∧ rk q < rk p

/-- The actions that drive the grid: a `Print` or an `Execute` handed over by the decoder. -/
inductive Step where
  | print (act : Action)
  | execute (act : Action)
  deriving DecidableEq, Repr

/-- Apply one action (`act->act_on_terminal( this )`). -/
def Emulator.step (wcwidth : Nat → Int) (s : Step) (e : Emulator) : Except Fault Emulator :=
  match s with
  | .print act => e.print wcwidth act
  | .execute act => e.execute act

/-- Apply a sequence of actions in order, stopping at the first fault. -/
def Emulator.run (wcwidth : Nat → Int) : List Step → Emulator → Except Fault Emulator
  | [], e => .ok e
  | s :: rest, e =>
    match e.step wcwidth s with
    | .error x => .error x
    | .ok e1 => Emulator.run wcwidth rest e1

/-- The decimal value of a string of digits, most significant digit first. -/
def spec_decimal (seg : List Char) : Nat :=
  Nat.ofDigits 10 (seg.reverse.map (fun c => c.toNat - 48))

/-- What the specification assigns to a segment of `params`: `-1` when it is empty, its
decimal value otherwise. -/
def spec_param_value (seg : List Char) : Int :=
  if seg = [] then -1 else (spec_decimal seg : Int)

/-- The specification of `parse_params`: split on `;`, keep empty segments, map each
segment to its value in order. -/
def spec_parse_params (params : List Char) : List Int :=
  (params.splitOn ';').map spec_param_value

/-- The entry a segment of digits contributes to `parsed_params`: `-1` when it is empty,
nothing when its value is above `LONG_MAX`, its value converted to `int` otherwise. -/
def segment_entry (long_max : Nat) (seg : List Char) : Option Int :=
  if seg = [] then some (-1)
  else if spec_decimal seg > long_max then none
  else some (long_to_int (spec_decimal seg))

/-- Apply `param` to each byte of a sequence in order, stopping at the first fault. -/
def Emulator.param_all : List Nat → Emulator → Except Fault Emulator
  | [], e => .ok e
  | b :: rest, e =>
    match e.param { char_present := true, ch := b } with
    | .error x => .error x
    | .ok e1 => Emulator.param_all rest e1

/-- The actions of `Step`, and a direct call of `scroll`. -/
inductive Op where
  | step (s : Step)
  | scroll (N : Int)
  deriving DecidableEq, Repr

/-- Apply one `Op`. -/
def Emulator.apply_op (wcwidth : Nat → Int) (o : Op) (e : Emulator) : Except Fault Emulator :=
  match o with
  | .step s => e.step wcwidth s
  | .scroll N => e.scroll N

/-- Apply a sequence of print, execute and scroll actions in order, stopping at the first
fault. -/
def Emulator.run_ops (wcwidth : Nat → Int) : List Op → Emulator → Except Fault Emulator
  | [], e => .ok e
  | o :: rest, e =>
    match e.apply_op wcwidth o with
    | .error x => .error x
    | .ok e1 => Emulator.run_ops wcwidth rest e1

/-- The cell to the right of `p` in the same row. -/
def CellPtr.next (p : CellPtr) : CellPtr :=
  { row := p.row, col := p.col + 1 }

/-- The wide-glyph links of the deque are local and symmetric: a cell spans nothing or
exactly its right neighbour, which then points back to it; a cell that points back to a
leading cell is the right neighbour of that cell, which spans exactly it. -/
def Deque.LinksOK (d : Deque) : Prop :=
  ∀ p c, d.load p = .ok c →
    (c.overlapped_cells = [] ∨ c.overlapped_cells = [p.next]) ∧
    (c.overlapped_cells = [p.next] →
      ∃ t, d.load p.next = .ok t ∧ t.overlapping_cell = some p) ∧
    (∀ L, c.overlapping_cell = some L →
      L.next = p ∧ ∃ l, d.load L = .ok l ∧ l.overlapped_cells = [p])

/-- Every row of the deque has `w` cells. -/
def Deque.RowsWidth (d : Deque) (w : Nat) : Prop :=
  ∀ row ∈ d.elems, row.cells.length = w

/-- The shape of an emulator built for `w` columns and `h` rows, and its links. -/
def Emulator.GridOK (w h : Nat) (e : Emulator) : Prop :=
  e.width = w ∧ e.height = h ∧ e.rows.elems.length = h ∧ e.rows.RowsWidth w ∧
    e.rows.LinksOK

/-! ## Concrete inputs used in the examples -/

/-- A `wcwidth` for the examples: U+4E00 is wide, U+0301 is combining, the C0 controls
are not printable, every other character has width 1. -/
def wcwidth_sample (c : Nat) : Int :=
  if c = 0x4e00 then 2 else if c = 0x301 then 0 else if c < 32 then -1 else 1

/-- One row of two cells holding one wide glyph: the leading cell at column 0 and the
trailing cell at column 1, linked to each other. -/
def wide_pair : Deque :=
  { popped := 0,
    elems := [{ cells := [
      { overlapping_cell := none, contents := [0x4e00],
        overlapped_cells := [{ row := 0, col := 1 }] },
      { overlapping_cell := some { row := 0, col := 0 }, contents := [0x41],
        overlapped_cells := [] }] }] }

/-- One row of three cells: a leading cell at column 0 spanning the two cells after it. -/
def wide_triple : Deque :=
  { popped := 0,
    elems := [{ cells := [
      { overlapping_cell := none, contents := [0x4e00],
        overlapped_cells := [{ row := 0, col := 1 }, { row := 0, col := 2 }] },
      { overlapping_cell := some { row := 0, col := 0 }, contents := [0x41],
        overlapped_cells := [] },
      { overlapping_cell := some { row := 0, col := 0 }, contents := [0x42],
        overlapped_cells := [] }] }] }

/-- A fresh 80x24 emulator whose parameter buffer holds `1;;3`. -/
def params_sample : Emulator :=
  { Emulator.new 80 24 with params := ['1', ';', ';', '3'] }

/-- A fresh 80x24 emulator whose parameter buffer holds a run of 100 digits `9`. -/
def params_overflow : Emulator :=
  { Emulator.new 80 24 with params := List.replicate 100 '9' }

/-- A fresh 80x24 emulator whose parameter buffer holds twenty digits `9`, then `;5`. -/
def params_shifted : Emulator :=
  { Emulator.new 80 24 with params := List.replicate 20 '9' ++ [';', '5'] }

/-- Scroll by one, feed a line, print `a` and a wide character, return to column 0 and
print another wide character. -/
def ops_sample : List Op :=
  [.scroll 1,
   .step (.execute { char_present := true, ch := 0x0a }),
   .step (.print { char_present := true, ch := 0x61 }),
   .step (.print { char_present := true, ch := 0x4e00 }),
   .step (.execute { char_present := true, ch := 0x0d }),
   .step (.print { char_present := true, ch := 0x4e00 })]

/-! ## Loads and stores through cell pointers -/

theorem load_eq_ok_iff (d : Deque) (p : CellPtr) (c : Cell) :
    d.load p = .ok c ↔
      d.popped ≤ p.row ∧ ∃ row, d.elems[p.row - d.popped]? = some row ∧
        row.cells[p.col]? = some c := by
  unfold Deque.load
  by_cases h : p.row < d.popped
  · simp [h]
  · simp only [h, if_false]
    have h2 : d.popped ≤ p.row := by omega
    cases hrow : d.elems[p.row - d.popped]? with
    | none => simp
    | some row =>
      cases hc : row.cells[p.col]? with
      | none => simp [h2, hc]
      | some c2 => simp [h2, hc]

theorem modify_of_load {d : Deque} {p : CellPtr} {c : Cell} (f : Cell → Cell)
    (h : d.load p = .ok c) :
    ∃ d2, d.modify p f = .ok d2 ∧ d2.shape = d.shape ∧ d2.load p = .ok (f c) ∧
      ∀ q, q ≠ p → d2.load q = d.load q := by
  obtain ⟨hp, row, hrow, hc⟩ := (load_eq_ok_iff d p c).1 h
  have hnp : ¬ p.row < d.popped := by omega
  have hi : p.row - d.popped < d.elems.length := by
    rcases List.getElem?_eq_some.1 hrow with ⟨hlt, _⟩; exact hlt
  have hj : p.col < row.cells.length := by
    rcases List.getElem?_eq_some.1 hc with ⟨hlt, _⟩; exact hlt
  refine ⟨Deque.mk d.popped (d.elems.set (p.row - d.popped)
              (Row.mk (row.cells.set p.col (f c)))), ?_, ?_, ?_, ?_⟩
  · simp [Deque.modify, hnp, hrow, hc]
  · simp only [Deque.shape, List.map_set, List.length_set, Prod.mk.injEq, true_and]
    apply List.ext_getElem?
    intro n
    rw [List.getElem?_set]
    by_cases hn : p.row - d.popped = n
    · subst hn
      have hget : d.elems[p.row - d.popped] = row := by
        rcases List.getElem?_eq_some.1 hrow with ⟨_, hv⟩; exact hv
      simp [hi, hget]
    · simp [hn]
  · rw [load_eq_ok_iff]
    refine ⟨hp, Row.mk (row.cells.set p.col (f c)), ?_, ?_⟩
    · simp only [List.getElem?_set, hi, if_true]
    · simp [List.getElem?_set, hj]
  · intro q hq
    unfold Deque.load
    simp only
    by_cases hqp : q.row < d.popped
    · simp [hqp]
    · simp only [hqp, if_false]
      by_cases hr : p.row - d.popped = q.row - d.popped
      · have hrow_eq : p.row = q.row := by omega
        have hcol : p.col ≠ q.col := by
          intro hcc; apply hq; cases p; cases q; simp_all
        rw [List.getElem?_set, if_pos hr, if_pos hi, ← hr, hrow]
        simp only [List.getElem?_set_ne hcol]
      · rw [List.getElem?_set_ne hr]

theorem modify_ok_load {d d2 : Deque} {p : CellPtr} {f : Cell → Cell}
    (h : d.modify p f = .ok d2) : ∃ c, d.load p = .ok c := by
  unfold Deque.modify at h
  unfold Deque.load
  split at h
  · cases h
  · rename_i hnp
    simp only [hnp, if_false]
    split at h
    · cases h
    · rename_i row hrow
      split at h
      · cases h
      · rename_i c hc
        exact ⟨c, by simp [hc]⟩

theorem modify_spec {d d2 : Deque} {p : CellPtr} {f : Cell → Cell}
    (h : d.modify p f = .ok d2) :
    ∃ c, d.load p = .ok c ∧ d2.shape = d.shape ∧ d2.load p = .ok (f c) ∧
      ∀ q, q ≠ p → d2.load q = d.load q := by
  obtain ⟨c, hc⟩ := modify_ok_load h
  obtain ⟨d3, h3, hs, hl, ho⟩ := modify_of_load f hc
  rw [h] at h3
  cases h3
  exact ⟨c, hc, hs, hl, ho⟩
/-! ## `Cell::reset` only clears members -/

theorem cell_clearedFrom_refl (c : Cell) : c.ClearedFrom c :=
  ⟨Or.inl rfl, Or.inl rfl, Or.inl rfl⟩

theorem cell_clearedFrom_trans {c3 c2 c1 : Cell}
    (h32 : c3.ClearedFrom c2) (h21 : c2.ClearedFrom c1) : c3.ClearedFrom c1 := by
  obtain ⟨a1, a2, a3⟩ := h32
  obtain ⟨b1, b2, b3⟩ := h21
  refine ⟨?_, ?_, ?_⟩
  · rcases a1 with a | a
    · rw [a]; exact b1
    · exact Or.inr a
  · rcases a2 with a | a
    · rw [a]; exact b2
    · exact Or.inr a
  · rcases a3 with a | a
    · rw [a]; exact b3
    · exact Or.inr a

theorem deque_clearedFrom_refl (d : Deque) : d.ClearedFrom d :=
  ⟨rfl, fun _ c h => ⟨c, h, cell_clearedFrom_refl c⟩⟩

theorem deque_clearedFrom_trans {d3 d2 d1 : Deque}
    (h32 : d3.ClearedFrom d2) (h21 : d2.ClearedFrom d1) : d3.ClearedFrom d1 := by
  refine ⟨h32.1.trans h21.1, ?_⟩
  intro q c hc
  obtain ⟨c2, hc2, hle2⟩ := h21.2 q c hc
  obtain ⟨c3, hc3, hle3⟩ := h32.2 q c2 hc2
  exact ⟨c3, hc3, cell_clearedFrom_trans hle3 hle2⟩

theorem load_ok_of_shape {d2 d : Deque} (hs : d2.shape = d.shape) {p : CellPtr} {c2 : Cell}
    (h : d2.load p = .ok c2) : ∃ c, d.load p = .ok c := by
  obtain ⟨hp, row, hrow, hc⟩ := (load_eq_ok_iff d2 p c2).1 h
  simp only [Deque.shape, Prod.mk.injEq] at hs
  obtain ⟨hpop, hmap⟩ := hs
  have h1 : (d2.elems.map (fun row => row.cells.length))[p.row - d2.popped]?
      = (d.elems.map (fun row => row.cells.length))[p.row - d2.popped]? := by rw [hmap]
  simp only [List.getElem?_map, hrow, Option.map_some'] at h1
  cases hr : d.elems[p.row - d2.popped]? with
  | none => rw [hr] at h1; simp at h1
  | some row1 =>
    rw [hr] at h1
    simp only [Option.map_some', Option.some.injEq] at h1
    have hlt : p.col < row1.cells.length := by
      rw [← h1]
      rcases List.getElem?_eq_some.1 hc with ⟨hlt, _⟩; exact hlt
    refine ⟨row1.cells[p.col], ?_⟩
    rw [load_eq_ok_iff]
    refine ⟨by omega, row1, by rw [← hpop]; exact hr, ?_⟩
    exact List.getElem?_eq_getElem hlt

theorem modify_clearedFrom {d d2 : Deque} {p : CellPtr} {f : Cell → Cell}
    (h : d.modify p f = .ok d2) (hf : ∀ c, (f c).ClearedFrom c) : d2.ClearedFrom d := by
  obtain ⟨c, hc, hs, hl, ho⟩ := modify_spec h
  refine ⟨hs, ?_⟩
  intro q c1 hq
  by_cases hqp : q = p
  · subst hqp
    rw [hc] at hq
    cases hq
    exact ⟨f c, hl, hf c⟩
  · exact ⟨c1, by rw [ho q hqp]; exact hq, cell_clearedFrom_refl c1⟩

theorem ranked_of_clearedFrom {rk : CellPtr → Nat} {d2 d : Deque}
    (hle : d2.ClearedFrom d) (hr : d.Ranked rk) : d2.Ranked rk := by
  intro p c2 hc2 q hq
  obtain ⟨c, hc⟩ := load_ok_of_shape hle.1 hc2
  obtain ⟨c2b, hc2b, hcl⟩ := hle.2 p c hc
  rw [hc2] at hc2b
  cases hc2b
  have hq1 : q ∈ c.overlapped_cells := by
    rcases hcl.2.2 with h | h
    · rw [← h]; exact hq
    · rw [h] at hq; cases hq
  obtain ⟨⟨t, ht⟩, hlt⟩ := hr p c hc q hq1
  obtain ⟨t2, ht2, _⟩ := hle.2 q t ht
  exact ⟨⟨t2, ht2⟩, hlt⟩

theorem reset_each_clearedFrom (f : CellPtr → Deque → Except Fault Deque)
    (hf : ∀ q d d2, f q d = .ok d2 → d2.ClearedFrom d) :
    ∀ (qs : List CellPtr) (d d2 : Deque),
      Cell.reset_each f qs d = .ok d2 → d2.ClearedFrom d := by
  intro qs
  induction qs with
  | nil =>
    intro d d2 h
    simp only [Cell.reset_each] at h
    cases h
    exact deque_clearedFrom_refl d
  | cons q qs ih =>
    intro d d2 h
    simp only [Cell.reset_each] at h
    cases h1 : d.modify q (fun t => { t with overlapping_cell := none }) with
    | error x => rw [h1] at h; cases h
    | ok d1 =>
      rw [h1] at h
      simp only at h
      cases h2 : f q d1 with
      | error x => rw [h2] at h; cases h
      | ok d3 =>
        rw [h2] at h
        simp only at h
        have hle1 : d1.ClearedFrom d :=
          modify_clearedFrom h1 (fun c => ⟨Or.inr rfl, Or.inl rfl, Or.inl rfl⟩)
        exact deque_clearedFrom_trans (ih d3 d2 h)
          (deque_clearedFrom_trans (hf q d1 d3 h2) hle1)

theorem reset_clearedFrom : ∀ (fuel : Nat) (p : CellPtr) (d d2 : Deque),
    Cell.reset fuel p d = .ok d2 → d2.ClearedFrom d := by
  intro fuel
  induction fuel with
  | zero => intro p d d2 h; simp [Cell.reset] at h
  | succ fuel ih =>
    intro p d d2 h
    simp only [Cell.reset] at h
    cases hc : d.load p with
    | error x => rw [hc] at h; cases h
    | ok c =>
      rw [hc] at h
      simp only at h
      split at h
      · split at h
        · exact modify_clearedFrom h (fun c => ⟨Or.inl rfl, Or.inr rfl, Or.inl rfl⟩)
        · cases h
      · cases h1 : d.modify p (fun t => { t with contents := [] }) with
        | error x => rw [h1] at h; cases h
        | ok d1 =>
          rw [h1] at h
          simp only at h
          cases h2 : Cell.reset_each (Cell.reset fuel) c.overlapped_cells d1 with
          | error x => rw [h2] at h; cases h
          | ok d3 =>
            rw [h2] at h
            simp only at h
            have hle1 : d1.ClearedFrom d :=
              modify_clearedFrom h1 (fun c => ⟨Or.inl rfl, Or.inr rfl, Or.inl rfl⟩)
            have hle3 : d3.ClearedFrom d1 := reset_each_clearedFrom _ ih _ _ _ h2
            have hle2 : d2.ClearedFrom d3 :=
              modify_clearedFrom h (fun c => ⟨Or.inl rfl, Or.inl rfl, Or.inr rfl⟩)
            exact deque_clearedFrom_trans hle2 (deque_clearedFrom_trans hle3 hle1)
/-! ## What `Cell::reset` leaves behind, and when it returns -/

theorem reset_each_cons_inv {f : CellPtr → Deque → Except Fault Deque} {q : CellPtr}
    {qs : List CellPtr} {d d2 : Deque} (h : Cell.reset_each f (q :: qs) d = .ok d2) :
    ∃ d1 d3, d.modify q (fun t => { t with overlapping_cell := none }) = .ok d1 ∧
      f q d1 = .ok d3 ∧ Cell.reset_each f qs d3 = .ok d2 := by
  simp only [Cell.reset_each] at h
  cases h1 : d.modify q (fun t => { t with overlapping_cell := none }) with
  | error x => rw [h1] at h; cases h
  | ok d1 =>
    rw [h1] at h
    simp only at h
    cases h2 : f q d1 with
    | error x => rw [h2] at h; cases h
    | ok d3 =>
      rw [h2] at h
      exact ⟨d1, d3, rfl, h2, h⟩

theorem reset_succ_inv {fuel : Nat} {p : CellPtr} {d d2 : Deque}
    (h : Cell.reset (fuel + 1) p d = .ok d2) :
    ∃ c, d.load p = .ok c ∧
      ((c.overlapping_cell.isSome = true ∧ c.overlapped_cells.length = 0 ∧
          d.modify p (fun t => { t with contents := [] }) = .ok d2) ∨
       (c.overlapping_cell.isSome = false ∧ ∃ d1 d3,
          d.modify p (fun t => { t with contents := [] }) = .ok d1 ∧
          Cell.reset_each (Cell.reset fuel) c.overlapped_cells d1 = .ok d3 ∧
          d3.modify p (fun t => { t with overlapped_cells := [] }) = .ok d2)) := by
  simp only [Cell.reset] at h
  cases hc : d.load p with
  | error x => rw [hc] at h; cases h
  | ok c =>
    rw [hc] at h
    simp only at h
    refine ⟨c, rfl, ?_⟩
    split at h
    · rename_i hs
      split at h
      · rename_i hl
        exact Or.inl ⟨hs, hl, h⟩
      · cases h
    · rename_i hs
      right
      refine ⟨by simpa using hs, ?_⟩
      cases h1 : d.modify p (fun t => { t with contents := [] }) with
      | error x => rw [h1] at h; cases h
      | ok d1 =>
        rw [h1] at h
        simp only at h
        cases h2 : Cell.reset_each (Cell.reset fuel) c.overlapped_cells d1 with
        | error x => rw [h2] at h; cases h
        | ok d3 =>
          rw [h2] at h
          exact ⟨d1, d3, rfl, h2, h⟩

theorem reset_contents_nil {fuel : Nat} {p : CellPtr} {d d2 : Deque}
    (h : Cell.reset fuel p d = .ok d2) : ∃ c2, d2.load p = .ok c2 ∧ c2.contents = [] := by
  cases fuel with
  | zero => simp [Cell.reset] at h
  | succ fuel =>
    obtain ⟨c, hc, hcase⟩ := reset_succ_inv h
    rcases hcase with ⟨_, _, hm⟩ | ⟨_, d1, d3, hm1, hre, hm3⟩
    · obtain ⟨c1, hc1, _, hl, _⟩ := modify_spec hm
      exact ⟨_, hl, rfl⟩
    · obtain ⟨c1, hc1, _, hl1, _⟩ := modify_spec hm1
      have hle := reset_each_clearedFrom _ (reset_clearedFrom fuel) _ _ _ hre
      obtain ⟨c3, hc3, hcl⟩ := hle.2 p _ hl1
      obtain ⟨c3b, hc3b, _, hl3, _⟩ := modify_spec hm3
      rw [hc3] at hc3b
      cases hc3b
      refine ⟨_, hl3, ?_⟩
      rcases hcl.2.1 with h1 | h1
      · exact h1
      · exact h1

theorem reset_each_post (f : CellPtr → Deque → Except Fault Deque)
    (hle : ∀ q d d2, f q d = .ok d2 → d2.ClearedFrom d)
    (hpost : ∀ q d d2, f q d = .ok d2 → ∃ c2, d2.load q = .ok c2 ∧ c2.contents = []) :
    ∀ (qs : List CellPtr) (d d2 : Deque), Cell.reset_each f qs d = .ok d2 →
      ∀ q ∈ qs, ∃ t, d2.load q = .ok t ∧ t.overlapping_cell = none ∧ t.contents = [] := by
  intro qs
  induction qs with
  | nil => intro d d2 _ q hq; cases hq
  | cons q0 qs ih =>
    intro d d2 h q hq
    obtain ⟨d1, d3, hm, hf, hrest⟩ := reset_each_cons_inv h
    rcases List.mem_cons.1 hq with hq0 | hqs
    · subst hq0
      obtain ⟨c, hc, _, hl1, _⟩ := modify_spec hm
      obtain ⟨c3, hc3, hcl3⟩ := (hle _ _ _ hf).2 _ _ hl1
      obtain ⟨c3b, hc3b, hnil⟩ := hpost _ _ _ hf
      rw [hc3] at hc3b
      cases hc3b
      obtain ⟨t, ht, hclt⟩ := (reset_each_clearedFrom f hle _ _ _ hrest).2 _ _ hc3
      refine ⟨t, ht, ?_, ?_⟩
      · have h3 : c3.overlapping_cell = none := by
          rcases hcl3.1 with h1 | h1
          · exact h1
          · exact h1
        rcases hclt.1 with h1 | h1
        · rw [h1, h3]
        · exact h1
      · rcases hclt.2.1 with h1 | h1
        · rw [h1, hnil]
        · exact h1
    · exact ih d3 d2 hrest q hqs

theorem reset_leading_post {fuel : Nat} {p : CellPtr} {d d2 : Deque} {c : Cell}
    (h : Cell.reset fuel p d = .ok d2) (hc : d.load p = .ok c)
    (hnt : c.overlapping_cell = none) :
    (∃ c2, d2.load p = .ok c2 ∧ c2.contents = [] ∧ c2.overlapped_cells = []) ∧
    ∀ T ∈ c.overlapped_cells,
      ∃ t, d2.load T = .ok t ∧ t.overlapping_cell = none ∧ t.contents = [] := by
  obtain ⟨c2, hc2, hnil⟩ := reset_contents_nil h
  cases fuel with
  | zero => simp [Cell.reset] at h
  | succ fuel =>
    obtain ⟨cb, hcb, hcase⟩ := reset_succ_inv h
    rw [hc] at hcb
    cases hcb
    rcases hcase with ⟨hs, _, _⟩ | ⟨_, d1, d3, hm1, hre, hm3⟩
    · rw [hnt] at hs; simp at hs
    · obtain ⟨c3, hc3, _, hl3, ho3⟩ := modify_spec hm3
      constructor
      · rw [hl3] at hc2
        cases hc2
        exact ⟨_, hl3, hnil, rfl⟩
      · intro T hT
        obtain ⟨t, ht, hov, hcn⟩ :=
          reset_each_post _ (reset_clearedFrom fuel) (fun _ _ _ hr => reset_contents_nil hr)
            _ _ _ hre T hT
        by_cases hTp : T = p
        · subst hTp
          rw [ht] at hc3
          cases hc3
          exact ⟨_, hl3, hov, hcn⟩
        · exact ⟨t, by rw [ho3 T hTp]; exact ht, hov, hcn⟩

theorem reset_each_terminates (rk : CellPtr → Nat) (fuel : Nat)
    (f : CellPtr → Deque → Except Fault Deque)
    (hle : ∀ q d d2, f q d = .ok d2 → d2.ClearedFrom d)
    (hterm : ∀ q d c, d.Ranked rk → d.load q = .ok c → c.overlapping_cell = none →
      rk q < fuel → ∃ d2, f q d = .ok d2) :
    ∀ (qs : List CellPtr) (d : Deque), d.Ranked rk →
      (∀ q ∈ qs, (∃ t, d.load q = .ok t) ∧ rk q < fuel) →
      ∃ d2, Cell.reset_each f qs d = .ok d2 := by
  intro qs
  induction qs with
  | nil => intro d _ _; exact ⟨d, rfl⟩
  | cons q0 qs ih =>
    intro d hr hq
    obtain ⟨⟨t, ht⟩, hlt⟩ := hq q0 (List.mem_cons_self _ _)
    obtain ⟨d1, hm, _, hl1, _⟩ :=
      modify_of_load (fun t => { t with overlapping_cell := none }) ht
    have hle1 : d1.ClearedFrom d :=
      modify_clearedFrom hm (fun c => ⟨Or.inr rfl, Or.inl rfl, Or.inl rfl⟩)
    have hr1 := ranked_of_clearedFrom hle1 hr
    obtain ⟨d3, hf⟩ := hterm q0 d1 _ hr1 hl1 rfl hlt
    have hle3 : d3.ClearedFrom d := deque_clearedFrom_trans (hle _ _ _ hf) hle1
    have hr3 := ranked_of_clearedFrom hle3 hr
    obtain ⟨d2, h2⟩ := ih d3 hr3 (by
      intro q hqs
      obtain ⟨⟨t1, ht1⟩, hlt1⟩ := hq q (List.mem_cons_of_mem _ hqs)
      obtain ⟨t3, ht3, _⟩ := hle3.2 q t1 ht1
      exact ⟨⟨t3, ht3⟩, hlt1⟩)
    refine ⟨d2, ?_⟩
    simp only [Cell.reset_each, hm, hf, h2]

theorem reset_terminates (rk : CellPtr → Nat) : ∀ (fuel : Nat) (p : CellPtr) (d : Deque)
    (c : Cell), d.Ranked rk → d.load p = .ok c →
    (c.overlapping_cell = none ∨ c.overlapped_cells = []) → rk p < fuel →
    ∃ d2, Cell.reset fuel p d = .ok d2 := by
  intro fuel
  induction fuel with
  | zero => intro p d c _ _ _ hlt; omega
  | succ fuel ih =>
    intro p d c hr hc hpre hlt
    obtain ⟨d1, hm1, _, hl1, _⟩ := modify_of_load (fun t => { t with contents := [] }) hc
    by_cases hs : c.overlapping_cell.isSome = true
    · have hov : c.overlapped_cells = [] := by
        rcases hpre with h | h
        · rw [h] at hs; simp at hs
        · exact h
      refine ⟨d1, ?_⟩
      simp only [Cell.reset, hc, hs, hov, List.length_nil, if_true, hm1]
    · have hle1 : d1.ClearedFrom d :=
        modify_clearedFrom hm1 (fun c => ⟨Or.inl rfl, Or.inr rfl, Or.inl rfl⟩)
      have hr1 := ranked_of_clearedFrom hle1 hr
      obtain ⟨d3, hre⟩ := reset_each_terminates rk fuel (Cell.reset fuel) (reset_clearedFrom fuel)
        (fun q d c hrq hcq hn hq => ih q d c hrq hcq (Or.inl hn) hq)
        c.overlapped_cells d1 hr1 (by
          intro q hq
          obtain ⟨⟨t, ht⟩, hlt1⟩ := hr p c hc q hq
          obtain ⟨t1, ht1, _⟩ := hle1.2 q t ht
          exact ⟨⟨t1, ht1⟩, by omega⟩)
      have hle3 := reset_each_clearedFrom _ (reset_clearedFrom fuel) _ _ _ hre
      obtain ⟨c3, hc3, _⟩ := hle3.2 p _ hl1
      obtain ⟨d2, hm3, _⟩ := modify_of_load (fun t => { t with overlapped_cells := [] }) hc3
      refine ⟨d2, ?_⟩
      simp only [Cell.reset, hc, hs, hm1, hre, hm3]
      simp
/-! ## C1: `scroll` -/

theorem drop_snoc_replicate {α : Type} (rest : List α) (b : α) (n : Nat) :
    (rest ++ [b]).drop n ++ List.replicate (min n (rest.length + 1)) b
      = rest.drop n ++ List.replicate (min (n + 1) (rest.length + 1)) b := by
  rcases Nat.lt_or_ge rest.length n with h | h
  · have h1 : (rest ++ [b]).drop n = [] := by
      apply List.drop_eq_nil_of_le; simp; omega
    have h2 : rest.drop n = [] := List.drop_eq_nil_of_le (by omega)
    have h3 : min n (rest.length + 1) = rest.length + 1 := by omega
    have h4 : min (n + 1) (rest.length + 1) = rest.length + 1 := by omega
    rw [h1, h2, h3, h4]
  · have h1 : (rest ++ [b]).drop n = rest.drop n ++ [b] := List.drop_append_of_le_length h
    have h3 : min n (rest.length + 1) = n := by omega
    have h4 : min (n + 1) (rest.length + 1) = n + 1 := by omega
    rw [h1, h3, h4, List.append_assoc]
    congr 1

theorem scroll_loop_eq (n : Nat) : ∀ e : Emulator, e.rows.elems ≠ [] →
    Emulator.scroll_loop n e = .ok
      { e with
        rows := { popped := e.rows.popped + n,
                  elems := e.rows.elems.drop n ++
                    List.replicate (min n e.rows.elems.length) (Row.new e.width) },
        cursor_row := e.cursor_row - n,
        combining_char_row := e.combining_char_row - n } := by
  induction n with
  | zero => intro e _; simp [Emulator.scroll_loop]
  | succ n ih =>
    intro e he
    obtain ⟨r, rest, hr⟩ := List.exists_cons_of_ne_nil he
    have hpop : e.rows.pop_front = .ok { popped := e.rows.popped + 1, elems := rest } := by
      simp [Deque.pop_front, hr]
    rw [Emulator.scroll_loop, hpop]
    simp only []
    rw [ih _ (by simp [Deque.push_back])]
    simp only [Deque.push_back, hr, List.length_append, List.length_singleton,
      List.length_cons, List.drop_succ_cons, List.length_nil, Nat.zero_add]
    rw [drop_snoc_replicate]
    have h1 : e.cursor_row - 1 - (n : Int) = e.cursor_row - ((n + 1 : Nat) : Int) := by
      push_cast; ring
    have h2 : e.combining_char_row - 1 - (n : Int)
        = e.combining_char_row - ((n + 1 : Nat) : Int) := by
      push_cast; ring
    rw [h1, h2, Nat.add_assoc, Nat.add_comm 1 n]

/-- C1. On a grid of `h > 0` rows, `scroll(n)` with `n ≥ 0` returns; the grid then still has
`h` rows, namely the old ones without the top `min(n,h)`, followed by `min(n,h)` blank rows
(every cell empty and unlinked); `cursor_row` and the combining-anchor row are smaller by
exactly `n`; `cursor_col` and the anchor column are as before. -/
theorem scroll_spec (e : Emulator) (n : Nat)
    (hh : 0 < e.height) (hrows : e.rows.elems.length = e.height) :
    ∃ e2 : Emulator, e.scroll (n : Int) = .ok e2 ∧
      e2.rows.elems.length = e.height ∧
      e2.rows.elems = e.rows.elems.drop (min n e.height) ++
        List.replicate (min n e.height) (Row.new e.width) ∧
      (∀ c ∈ (Row.new e.width).cells,
        c.contents = [] ∧ c.overlapping_cell = none ∧ c.overlapped_cells = []) ∧
      (Row.new e.width).cells.length = e.width ∧
      e2.cursor_row = e.cursor_row - n ∧
      e2.combining_char_row = e.combining_char_row - n ∧
      e2.cursor_col = e.cursor_col ∧
      e2.combining_char_col = e.combining_char_col ∧
      e2.width = e.width ∧ e2.height = e.height := by
  have hne : e.rows.elems ≠ [] := by
    intro h0; rw [h0] at hrows; simp at hrows; omega
  have hloop := scroll_loop_eq n e hne
  have hblank : ∀ c ∈ (Row.new e.width).cells,
      c.contents = [] ∧ c.overlapping_cell = none ∧ c.overlapped_cells = [] := by
    intro c hc
    simp only [Row.new, List.mem_replicate] at hc
    rw [hc.2]; simp [Cell.new]
  have hdrop : e.rows.elems.drop (min n e.height) = e.rows.elems.drop n := by
    rcases Nat.lt_or_ge n e.height with h | h
    · rw [Nat.min_eq_left (Nat.le_of_lt h)]
    · rw [Nat.min_eq_right h, List.drop_eq_nil_of_le (by omega),
        List.drop_eq_nil_of_le (by omega)]
  rcases Nat.eq_zero_or_pos n with h0 | hpos
  · subst h0
    refine ⟨e, by simp [Emulator.scroll], hrows, by simp, hblank, by simp [Row.new],
      by simp, by simp, rfl, rfl, rfl, rfl⟩
  · refine ⟨{ e with
        rows := { popped := e.rows.popped + n,
                  elems := e.rows.elems.drop n ++
                    List.replicate (min n e.rows.elems.length) (Row.new e.width) },
        cursor_row := e.cursor_row - n,
        combining_char_row := e.combining_char_row - n },
      ?_, ?_, ?_, hblank, by simp [Row.new], rfl, rfl, rfl, rfl, rfl, rfl⟩
    · have h1 : ¬ ((n : Int) = 0) := by omega
      have h2 : (n : Int) > 0 := by omega
      simp only [Emulator.scroll, h1, h2, if_true, if_false, Int.toNat_ofNat]
      exact hloop
    · simp only [List.length_append, List.length_drop, List.length_replicate, hrows]
      omega
    · simp only [hrows, hdrop]

/-- Scrolling a fresh 3x5 grid by 2, as in the test of the specification (h = 5, n = 2). -/
theorem scroll_spec_witness :
    ∃ e2 : Emulator, (Emulator.new 3 5).scroll ((2 : Nat) : Int) = .ok e2 ∧
      e2.rows.elems.length = (Emulator.new 3 5).height ∧
      e2.rows.elems = (Emulator.new 3 5).rows.elems.drop (min 2 (Emulator.new 3 5).height) ++
        List.replicate (min 2 (Emulator.new 3 5).height) (Row.new (Emulator.new 3 5).width) ∧
      (∀ c ∈ (Row.new (Emulator.new 3 5).width).cells,
        c.contents = [] ∧ c.overlapping_cell = none ∧ c.overlapped_cells = []) ∧
      (Row.new (Emulator.new 3 5).width).cells.length = (Emulator.new 3 5).width ∧
      e2.cursor_row = (Emulator.new 3 5).cursor_row - (2 : Nat) ∧
      e2.combining_char_row = (Emulator.new 3 5).combining_char_row - (2 : Nat) ∧
      e2.cursor_col = (Emulator.new 3 5).cursor_col ∧
      e2.combining_char_col = (Emulator.new 3 5).combining_char_col ∧
      e2.width = (Emulator.new 3 5).width ∧ e2.height = (Emulator.new 3 5).height :=
  scroll_spec (Emulator.new 3 5) 2 (by decide) (by decide)
/-! ## C2: a wide character at the last column -/

theorem addr_of_load {d : Deque} {r c : Nat} {cell : Cell}
    (h : d.load { row := d.popped + r, col := c } = .ok cell) :
    d.addr (r : Int) (c : Int) = .ok { row := d.popped + r, col := c } := by
  obtain ⟨_, row, hrow, hc⟩ := (load_eq_ok_iff _ _ _).1 h
  simp only [Nat.add_sub_cancel_left] at hrow
  have hlt : c < row.cells.length := by
    rcases List.getElem?_eq_some.1 hc with ⟨hlt, _⟩; exact hlt
  have h0 : ¬ ((r : Int) < 0 ∨ (c : Int) < 0) := by omega
  simp only [Deque.addr, h0, if_false, Int.toNat_ofNat, hrow, hlt, if_true]

theorem reset_no_overlapped {d : Deque} {p : CellPtr} {c : Cell} (fuel : Nat)
    (hc : d.load p = .ok c) (hov : c.overlapped_cells = []) :
    ∃ d1, Cell.reset (fuel + 1) p d = .ok d1 ∧ d1.shape = d.shape ∧
      d1.load p = .ok { c with contents := [] } ∧ ∀ q, q ≠ p → d1.load q = d.load q := by
  obtain ⟨d1, hm1, hs1, hl1, ho1⟩ := modify_of_load (fun t => { t with contents := [] }) hc
  by_cases hs : c.overlapping_cell.isSome = true
  · refine ⟨d1, ?_, hs1, hl1, ho1⟩
    simp only [Cell.reset, hc, hs, hov, List.length_nil, if_true, hm1]
  · obtain ⟨d2, hm2, hs2, hl2, ho2⟩ :=
      modify_of_load (fun t => { t with overlapped_cells := [] }) hl1
    refine ⟨d2, ?_, hs2.trans hs1, ?_, ?_⟩
    · simp only [Cell.reset, hc, hs, hov, hm1, Cell.reset_each, hm2]
      simp
    · rw [hl2, ← hov]
    · intro q hq
      rw [ho2 q hq, ho1 q hq]

theorem print_eq_print_base (wcwidth : Nat → Int) (e : Emulator) (act : Action)
    (hcp : act.char_present = true) (hw : e.width ≠ 0) (hh : e.height ≠ 0)
    (h150 : e.cursor_row < (e.height : Int)) (h151 : e.cursor_row ≤ (e.width : Int))
    (hch : act.ch ≠ 0) (hwc : wcwidth act.ch = 1 ∨ wcwidth act.ch = 2) :
    e.print wcwidth act = e.print_base (wcwidth act.ch) act.ch := by
  have hwh : ¬ (e.width = 0 ∨ e.height = 0) := by
    intro h; rcases h with h | h
    · exact hw h
    · exact hh h
  simp only [Emulator.print, hcp, hwh, h150, h151, hch, hwc]
  simp
  intro h1 h2
  rcases hwc with h | h
  · exact absurd h h1
  · exact absurd h h2

/-- What `print` does with a wide character when the cursor is on the last column, in every
state that passes its entry checks: it returns without wrapping, `cursor_row` is unchanged,
the character becomes the only content of the cell in the last column of the cursor row,
no trailing cell is linked, the combining anchor is that cell, no other cell changes, and
`cursor_col` ends at `width + 1`. -/
theorem print_wide_at_last_column (wcwidth : Nat → Int) (e : Emulator) (act : Action)
    (r : Nat) (target : Cell)
    (hcp : act.char_present = true) (hch : act.ch ≠ 0) (hw : wcwidth act.ch = 2)
    (hwidth : 2 ≤ e.width) (hheight : 0 < e.height)
    (hr : e.cursor_row = (r : Int)) (hrow : r < e.height) (hrw : r ≤ e.width)
    (hcol : e.cursor_col = (e.width : Int) - 1)
    (htarget : e.rows.load { row := e.rows.popped + r, col := e.width - 1 } = .ok target)
    (hnl : target.overlapped_cells = []) :
    ∃ e2, e.print wcwidth act = .ok e2 ∧
      e2.cursor_row = e.cursor_row ∧ e2.cursor_col = (e.width : Int) + 1 ∧
      e2.combining_char_row = e.cursor_row ∧ e2.combining_char_col = e.cursor_col ∧
      e2.rows.shape = e.rows.shape ∧
      e2.rows.load { row := e.rows.popped + r, col := e.width - 1 }
        = .ok { target with contents := [act.ch] } ∧
      ∀ q, q ≠ { row := e.rows.popped + r, col := e.width - 1 } →
        e2.rows.load q = e.rows.load q := by
  have hcolN : e.cursor_col = ((e.width - 1 : Nat) : Int) := by omega
  have haddr := addr_of_load htarget
  obtain ⟨d1, hreset, hs1, hl1, ho1⟩ := reset_no_overlapped e.rows.cell_count htarget hnl
  obtain ⟨d2, hm2, hs2, hl2, ho2⟩ :=
    modify_of_load (fun t => { t with contents := t.contents ++ [act.ch] }) hl1
  have hwh : ¬ (e.width = 0 ∨ e.height = 0) := by omega
  have h150 : e.cursor_row < (e.height : Int) := by omega
  have h151 : e.cursor_row ≤ (e.width : Int) := by omega
  have hnowrap : ¬ (e.cursor_col ≥ (e.width : Int)) := by omega
  have hnoscroll : ¬ (e.cursor_row ≥ (e.height : Int)) := by omega
  have hnolink : ¬ (e.cursor_col < (e.width : Int) - 1 ∧ (2 : Int) = 2) := by omega
  refine ⟨{ Emulator.newgrapheme { e with rows := d2 } with
            cursor_col := e.cursor_col + 2 }, ?_, rfl, by simp only; omega, rfl, rfl,
            hs2.trans hs1, ?_, ?_⟩
  · rw [print_eq_print_base wcwidth e act hcp (by omega) (by omega) h150 h151 hch
      (Or.inr hw), hw]
    unfold Emulator.print_base
    simp only [hnowrap, if_false, Emulator.autoscroll, hnoscroll]
    rw [hr, hcolN, haddr]
    simp only [hreset, hm2, Emulator.newgrapheme]
    rw [if_neg (by rw [← hcolN]; intro hx; exact hnolink ⟨hx.1, rfl⟩)]
  · simpa using hl2
  · intro q hq
    show d2.load q = e.rows.load q
    rw [ho2 q hq, ho1 q hq]

/-- A wide character printed on the last column of the first row of a 2x2 grid. -/
theorem print_wide_at_last_column_witness :
    ∃ e2, ({ Emulator.new 2 2 with cursor_col := 1 } : Emulator).print wcwidth_sample
        { char_present := true, ch := 0x4e00 } = .ok e2 ∧
      e2.cursor_row = 0 ∧ e2.cursor_col = ((2 : Nat) : Int) + 1 ∧
      e2.combining_char_row = 0 ∧ e2.combining_char_col = 1 ∧
      e2.rows.shape = (Emulator.new 2 2).rows.shape ∧
      e2.rows.load { row := 0 + 0, col := 2 - 1 }
        = .ok { Cell.new with contents := [0x4e00] } ∧
      ∀ q, q ≠ { row := 0 + 0, col := 2 - 1 } →
        e2.rows.load q = (Emulator.new 2 2).rows.load q :=
  print_wide_at_last_column wcwidth_sample { Emulator.new 2 2 with cursor_col := 1 }
    { char_present := true, ch := 0x4e00 } 0 Cell.new rfl (by decide) rfl (by decide)
    (by decide) rfl (by decide) (by decide) rfl rfl rfl

/-- C2 (code at the failing input). On a fresh 2x2 grid, after printing `a` the cursor is on
the last column (`cursor_col = width - 1`). Printing the wide character U+4E00 there does
not wrap: `cursor_row` stays 0, nothing is placed in column 0 of row 1, the last cell of
row 0 (empty before) is overwritten with the character and linked to no trailing cell, and
`cursor_col` becomes 3, two past the last column.  A backspace then puts the combining
anchor on column 2, outside the row, and printing the combining character U+0301
subscripts the row out of range. -/
theorem print_wide_last_column_no_wrap :
    ∃ e1 e2 e3, Emulator.run wcwidth_sample [.print { char_present := true, ch := 0x61 }]
        (Emulator.new 2 2) = .ok e1 ∧
      e1.cursor_col = (e1.width : Int) - 1 ∧ e1.cursor_row = 0 ∧
      wcwidth_sample 0x4e00 = 2 ∧
      e1.rows.load { row := 0, col := 1 } = .ok Cell.new ∧
      e1.print wcwidth_sample { char_present := true, ch := 0x4e00 } = .ok e2 ∧
      e2.cursor_row = 0 ∧
      e2.rows.load { row := 0, col := 1 } = .ok { Cell.new with contents := [0x4e00] } ∧
      e2.rows.load { row := 1, col := 0 } = .ok Cell.new ∧
      e2.cursor_col = 3 ∧ ¬ (e2.cursor_col ≤ (e2.width : Int)) ∧
      e2.execute { char_present := true, ch := 0x08 } = .ok e3 ∧
      e3.combining_char_col = 2 ∧ e3.width = 2 ∧
      e3.print wcwidth_sample { char_present := true, ch := 0x301 } = .error .undefined :=
  ⟨_, _, _, rfl, rfl, rfl, rfl, rfl, rfl, rfl, rfl, rfl, rfl, by decide, rfl, rfl, rfl, rfl⟩
/-! ## C3, C4: resetting the halves of a wide glyph -/

/-- C3 (code at the failing input). On a fresh 2x1 grid, printing `x`, `A`, a carriage
return and the wide character U+4E00 gives the grid `wide_pair`: `L` at column 0 and `T`
at column 1 linked as one wide glyph.  `T.reset()` returns and has only emptied
`T.contents`: `T.overlapping_cell` is still `L` and `L.overlapped_cells` still holds `T`.
So after a backspace and printing `y` over `T`, the cell of `y` still counts as the
trailing half of the glyph of `L`. -/
theorem reset_trailing_keeps_links :
    ∃ e d2 e2, Emulator.run wcwidth_sample
        [.print { char_present := true, ch := 0x78 },
         .print { char_present := true, ch := 0x41 },
         .execute { char_present := true, ch := 0x0d },
         .print { char_present := true, ch := 0x4e00 }] (Emulator.new 2 1) = .ok e ∧
      e.rows = wide_pair ∧
      Cell.reset 2 { row := 0, col := 1 } wide_pair = .ok d2 ∧
      d2.load { row := 0, col := 1 } = .ok
        { overlapping_cell := some { row := 0, col := 0 }, contents := [],
          overlapped_cells := [] } ∧
      d2.load { row := 0, col := 0 } = .ok
        { overlapping_cell := none, contents := [0x4e00],
          overlapped_cells := [{ row := 0, col := 1 }] } ∧
      Emulator.run wcwidth_sample
        [.execute { char_present := true, ch := 0x08 },
         .print { char_present := true, ch := 0x79 }] e = .ok e2 ∧
      e2.rows.load { row := 0, col := 1 } = .ok
        { overlapping_cell := some { row := 0, col := 0 }, contents := [0x79],
          overlapped_cells := [] } ∧
      e2.rows.load { row := 0, col := 0 } = .ok
        { overlapping_cell := none, contents := [0x4e00],
          overlapped_cells := [{ row := 0, col := 1 }] } :=
  ⟨_, _, _, rfl, rfl, rfl, rfl, rfl, rfl, rfl, rfl⟩

/-- C4. In a deque whose links are well founded (ranked by `rk`), `reset()` on a cell `L`
that is not a trailing cell returns when the recursion bound exceeds the rank of `L`;
afterwards `L.contents` and `L.overlapped_cells` are empty and every cell that was in
`L.overlapped_cells` has a null `overlapping_cell` and empty contents. -/
theorem reset_leading_cell (rk : CellPtr → Nat) (fuel : Nat) (d : Deque) (L : CellPtr)
    (c : Cell) (hr : d.Ranked rk) (hL : d.load L = .ok c)
    (hnt : c.overlapping_cell = none) (hf : rk L < fuel) :
    ∃ d2, Cell.reset fuel L d = .ok d2 ∧
      (∃ c2, d2.load L = .ok c2 ∧ c2.contents = [] ∧ c2.overlapped_cells = []) ∧
      ∀ T ∈ c.overlapped_cells,
        ∃ t, d2.load T = .ok t ∧ t.overlapping_cell = none ∧ t.contents = [] := by
  obtain ⟨d2, h⟩ := reset_terminates rk fuel L d c hr hL (Or.inl hnt) hf
  exact ⟨d2, h, reset_leading_post h hL hnt⟩

theorem wide_triple_ranked :
    wide_triple.Ranked (fun p => if p.col = 0 then 1 else 0) := by
  intro p c h q hq
  rcases p with ⟨r, col⟩
  rcases r with _ | r
  · rcases col with _ | _ | _ | col
    · simp [Deque.load, wide_triple] at h
      subst h
      simp at hq
      rcases hq with hq | hq <;> subst hq <;> simp [Deque.load, wide_triple]
    · simp [Deque.load, wide_triple] at h
      subst h
      simp at hq
    · simp [Deque.load, wide_triple] at h
      subst h
      simp at hq
    · simp [Deque.load, wide_triple] at h
  · simp [Deque.load, wide_triple] at h

/-- The leading cell of `wide_triple`, spanning two cells, is reset as C4 says. -/
theorem reset_leading_cell_witness :
    ∃ d2, Cell.reset 2 { row := 0, col := 0 } wide_triple = .ok d2 ∧
      (∃ c2, d2.load { row := 0, col := 0 } = .ok c2 ∧ c2.contents = [] ∧
        c2.overlapped_cells = []) ∧
      ∀ T ∈ [({ row := 0, col := 1 } : CellPtr), { row := 0, col := 2 }],
        ∃ t, d2.load T = .ok t ∧ t.overlapping_cell = none ∧ t.contents = [] :=
  reset_leading_cell (fun p => if p.col = 0 then 1 else 0) 2 wide_triple
    { row := 0, col := 0 }
    { overlapping_cell := none, contents := [0x4e00],
      overlapped_cells := [{ row := 0, col := 1 }, { row := 0, col := 2 }] }
    wide_triple_ranked rfl rfl (by decide)
/-! ## C5, C6: the assertions of `Cell::reset` and `Emulator::print` -/

/-- C5 (code at the failing input). On a fresh 4x1 grid, printing `a`, the wide character
U+4E00, a carriage return and U+4E00 again returns a state in which the cell at column 1
is both a trailing cell (of column 0) and a leading cell (of column 2); a backspace and
one more printed character then stop at the assertion of `Cell::reset`. -/
theorem leading_and_trailing_reachable :
    ∃ e, Emulator.run wcwidth_sample
        [.print { char_present := true, ch := 0x61 },
         .print { char_present := true, ch := 0x4e00 },
         .execute { char_present := true, ch := 0x0d },
         .print { char_present := true, ch := 0x4e00 }] (Emulator.new 4 1) = .ok e ∧
      e.rows.load { row := 0, col := 1 } = .ok
        { overlapping_cell := some { row := 0, col := 0 }, contents := [0x4e00],
          overlapped_cells := [{ row := 0, col := 2 }] } ∧
      Emulator.run wcwidth_sample
        [.execute { char_present := true, ch := 0x08 },
         .print { char_present := true, ch := 0x62 }] e = .error (.assertion 336) :=
  ⟨_, rfl, rfl, rfl⟩

/-- C6 (code at the failing input). On a fresh grid of width 1 and height 3, two line feeds
return a state with `cursor_row = 2 < height` and `cursor_col = 0 ≤ width`; printing `a`
there stops at the assertion of line 151, which compares `cursor_row` with `width`. -/
theorem print_asserts_row_against_width :
    ∃ e, Emulator.run wcwidth_sample
        [.execute { char_present := true, ch := 0x0a },
         .execute { char_present := true, ch := 0x0a }] (Emulator.new 1 3) = .ok e ∧
      0 < e.width ∧ 0 < e.height ∧
      0 ≤ e.cursor_row ∧ e.cursor_row < (e.height : Int) ∧
      0 ≤ e.cursor_col ∧ e.cursor_col ≤ (e.width : Int) ∧
      e.print wcwidth_sample { char_present := true, ch := 0x61 }
        = .error (.assertion 151) :=
  ⟨_, rfl, by decide, by decide, by decide, by decide, by decide, by decide, rfl⟩
/-! ## C7, C8: `parse_params` -/

theorem decimal_value_foldl (ds : List Char) (a : Nat) :
    ds.foldl (fun acc c => 10 * acc + (c.toNat - 48)) a
      = a * 10 ^ ds.length + spec_decimal ds := by
  induction ds generalizing a with
  | nil => simp [spec_decimal]
  | cons x xs ih =>
    rw [List.foldl_cons, ih]
    simp only [spec_decimal, List.reverse_cons, List.map_append, List.map_cons, List.map_nil,
      Nat.ofDigits_append, Nat.ofDigits_singleton, List.length_map, List.length_reverse,
      List.length_cons]
    ring

theorem decimal_value_eq_spec (ds : List Char) : decimal_value ds = spec_decimal ds := by
  unfold decimal_value
  rw [decimal_value_foldl]
  simp

theorem spec_decimal_lt (ds : List Char) (hd : ∀ c ∈ ds, isdigit c = true) :
    spec_decimal ds < 10 ^ ds.length := by
  have h := Nat.ofDigits_lt_base_pow_length (b := 10)
    (l := ds.reverse.map (fun c => c.toNat - 48)) (by decide) (by
      intro x hx
      simp only [List.mem_map, List.mem_reverse] at hx
      obtain ⟨c, hc, rfl⟩ := hx
      have := hd c hc
      simp only [isdigit, Bool.and_eq_true, decide_eq_true_eq] at this
      omega)
  simpa [spec_decimal] using h

theorem isdigit_not_space (c : Char) (h : isdigit c = true) : isspace c = false := by
  simp only [isdigit, Bool.and_eq_true, decide_eq_true_eq] at h
  have h32 : c ≠ ' ' := by
    intro hc; subst hc; revert h; decide
  simp only [isspace, Bool.or_eq_false_iff, decide_eq_false_iff_not, Bool.and_eq_false_iff]
  exact ⟨h32, by omega⟩

/-- `strtol` on a run of digits that ends the string or is followed by `;`. -/
theorem strtol_digits (long_max : Nat) (seg rest : List Char)
    (hd : ∀ c ∈ seg, isdigit c = true) (hrest : rest = [] ∨ ∃ t, rest = ';' :: t) :
    strtol long_max (seg ++ rest) =
      if seg = [] then { value := 0, consumed := 0, erange := false }
      else if spec_decimal seg > long_max then
        { value := long_max, consumed := seg.length, erange := true }
      else { value := spec_decimal seg, consumed := seg.length, erange := false } := by
  have hsemi_sp : isspace ';' = false := by decide
  have hsemi_dg : isdigit ';' = false := by decide
  have htw_d : (seg ++ rest).takeWhile isdigit = seg := by
    rcases hrest with h | ⟨t, h⟩
    · subst h
      rw [List.append_nil, List.takeWhile_eq_self_iff]
      exact hd
    · subst h
      rw [List.takeWhile_append_of_pos hd]
      simp [List.takeWhile, hsemi_dg]
  have hhead_sp : (seg ++ rest).takeWhile isspace = [] := by
    cases seg with
    | nil =>
      rcases hrest with h | ⟨t, h⟩
      · subst h; rfl
      · subst h; simp [List.takeWhile, hsemi_sp]
    | cons x xs =>
      have := isdigit_not_space x (hd x (List.mem_cons_self _ _))
      simp [List.takeWhile, this]
  have hdrop_sp : (seg ++ rest).dropWhile isspace = seg ++ rest := by
    have h := List.takeWhile_append_dropWhile isspace (seg ++ rest)
    rw [hhead_sp] at h
    simpa using h
  have hneg : ((seg ++ rest).head? = some '-') = False := by
    apply eq_false
    cases seg with
    | nil =>
      rcases hrest with h | ⟨t, h⟩
      · subst h; simp
      · subst h; simp
    | cons x xs =>
      have hx := hd x (List.mem_cons_self _ _)
      simp only [List.cons_append, List.head?_cons, Option.some.injEq]
      intro hc; subst hc; revert hx; decide
  have hpos : ((seg ++ rest).head? = some '+') = False := by
    apply eq_false
    cases seg with
    | nil =>
      rcases hrest with h | ⟨t, h⟩
      · subst h; simp
      · subst h; simp
    | cons x xs =>
      have hx := hd x (List.mem_cons_self _ _)
      simp only [List.cons_append, List.head?_cons, Option.some.injEq]
      intro hc; subst hc; revert hx; decide
  unfold strtol
  simp only [hdrop_sp, hhead_sp, hneg, hpos, or_self, if_false, List.drop_zero, htw_d,
    decide_False, List.length_nil, Nat.zero_add, decimal_value_eq_spec, Nat.add_zero]
  by_cases hnil : seg = []
  · subst hnil; simp
  · have hlen : seg.length ≠ 0 := by
      intro h0; exact hnil (List.length_eq_zero.1 h0)
    simp only [hlen, hnil, if_false]
    by_cases hbig : spec_decimal seg > long_max
    · have : ((spec_decimal seg : Nat) : Int) > (long_max : Int) := by exact_mod_cast hbig
      simp [hbig, this]
    · have h1 : ¬ (((spec_decimal seg : Nat) : Int) > (long_max : Int)) := by
        intro h; apply hbig; exact_mod_cast h
      have h2 : ¬ (((spec_decimal seg : Nat) : Int) < - (long_max : Int) - 1) := by omega
      simp [hbig, h1, h2]

theorem parse_segment_digits (long_max : Nat) (seg rest : List Char) (parsed : List Int)
    (hd : ∀ c ∈ seg, isdigit c = true) (hrest : rest = [] ∨ ∃ t, rest = ';' :: t) :
    parse_segment long_max (seg ++ rest) parsed
      = parsed ++ (segment_entry long_max seg).toList := by
  unfold parse_segment segment_entry
  rw [strtol_digits long_max seg rest hd hrest]
  by_cases hnil : seg = []
  · subst hnil; simp
  · have hlen : seg.length ≠ 0 := by
      intro h0; exact hnil (List.length_eq_zero.1 h0)
    by_cases hbig : spec_decimal seg > long_max
    · simp [hnil, hbig]
    · simp [hnil, hbig, hlen]

theorem isdigit_ne_semicolon (c : Char) (h : isdigit c = true) : c ≠ ';' := by
  intro hc; subst hc; revert h; decide

theorem parse_params_loop_eq (long_max : Nat) :
    ∀ (scan pre : List Char) (parsed : List Int),
      (∀ c ∈ pre, isdigit c = true) → (∀ c ∈ scan, c = ';' ∨ isdigit c = true) →
      parse_params_loop long_max scan (pre ++ scan) parsed
        = parsed ++ ((pre ++ scan).splitOn ';').filterMap (segment_entry long_max) := by
  intro scan
  induction scan with
  | nil =>
    intro pre parsed hpre _
    have hsingle : (pre ++ []).splitOn ';' = [pre] := by
      rw [List.append_nil]
      exact List.splitOnP_eq_single _ _ (by
        intro x hx; simpa using isdigit_ne_semicolon x (hpre x hx))
    rw [parse_params_loop, hsingle]
    have h := parse_segment_digits long_max pre [] parsed hpre (Or.inl rfl)
    rw [h]
    cases hse : segment_entry long_max pre <;> simp [List.filterMap_cons, hse]
  | cons c rest ih =>
    intro pre parsed hpre hscan
    have hrest : ∀ x ∈ rest, x = ';' ∨ isdigit x = true :=
      fun x hx => hscan x (List.mem_cons_of_mem _ hx)
    by_cases hc : c = ';'
    · subst hc
      have hsplit : (pre ++ ';' :: rest).splitOn ';' = pre :: rest.splitOn ';' :=
        List.splitOnP_first _ _ (by
          intro x hx; simpa using isdigit_ne_semicolon x (hpre x hx)) ';' (by simp) rest
      rw [parse_params_loop, if_pos rfl, hsplit,
        parse_segment_digits long_max pre (';' :: rest) parsed hpre (Or.inr ⟨rest, rfl⟩)]
      have h := ih [] (parsed ++ (segment_entry long_max pre).toList)
        (by intro x hx; cases hx) hrest
      rw [List.nil_append] at h
      rw [h, List.filterMap_cons]
      cases hse : segment_entry long_max pre <;> simp
    · have hdig : isdigit c = true := by
        rcases hscan c (List.mem_cons_self _ _) with h | h
        · exact absurd h hc
        · exact h
      rw [parse_params_loop, if_neg hc]
      have h := ih (pre ++ [c]) parsed (by
        intro x hx
        rcases List.mem_append.1 hx with h1 | h1
        · exact hpre x h1
        · simp only [List.mem_singleton] at h1; rw [h1]; exact hdig) hrest
      rw [List.append_assoc, List.singleton_append] at h
      exact h

theorem mem_splitOnP (p : Char → Bool) : ∀ (xs seg : List Char), seg ∈ xs.splitOnP p →
    ∀ c ∈ seg, c ∈ xs ∧ p c = false := by
  intro xs
  induction xs with
  | nil =>
    intro seg hseg c hc
    simp only [List.splitOnP_nil, List.mem_singleton] at hseg
    subst hseg; cases hc
  | cons x xs ih =>
    intro seg hseg c hc
    rw [List.splitOnP_cons] at hseg
    by_cases hp : p x = true
    · rw [if_pos hp] at hseg
      rcases List.mem_cons.1 hseg with h | h
      · subst h; cases hc
      · obtain ⟨h1, h2⟩ := ih seg h c hc
        exact ⟨List.mem_cons_of_mem _ h1, h2⟩
    · rw [if_neg hp] at hseg
      cases hs : xs.splitOnP p with
      | nil => exact absurd hs (List.splitOnP_ne_nil p xs)
      | cons h0 t =>
        rw [hs] at hseg
        simp only [List.modifyHead_cons, List.mem_cons] at hseg
        rcases hseg with h | h
        · subst h
          rcases List.mem_cons.1 hc with h1 | h1
          · subst h1
            exact ⟨List.mem_cons_self _ _, by simpa using hp⟩
          · obtain ⟨h2, h3⟩ := ih h0 (by rw [hs]; exact List.mem_cons_self _ _) c h1
            exact ⟨List.mem_cons_of_mem _ h2, h3⟩
        · obtain ⟨h2, h3⟩ := ih seg (by rw [hs]; exact List.mem_cons_of_mem _ h) c hc
          exact ⟨List.mem_cons_of_mem _ h2, h3⟩

theorem length_splitOnP (p : Char → Bool) (xs : List Char) :
    (xs.splitOnP p).length = xs.countP p + 1 := by
  induction xs with
  | nil => simp
  | cons x xs ih =>
    rw [List.splitOnP_cons]
    by_cases hp : p x = true
    · simp [hp, ih]
    · cases hs : xs.splitOnP p with
      | nil => exact absurd hs (List.splitOnP_ne_nil p xs)
      | cons h0 t =>
        rw [hs] at ih
        simp only [hp, List.modifyHead_cons, List.length_cons] at ih ⊢
        simp [hp, ih]

theorem filterMap_eq_map_of_forall {α β : Type} (f : α → Option β) (g : α → β) :
    ∀ l : List α, (∀ x ∈ l, f x = some (g x)) → l.filterMap f = l.map g := by
  intro l
  induction l with
  | nil => intro _; rfl
  | cons x xs ih =>
    intro h
    rw [List.filterMap_cons, h x (List.mem_cons_self _ _), List.map_cons,
      ih (fun y hy => h y (List.mem_cons_of_mem _ hy))]

theorem length_filterMap_of_forall_isSome {α β : Type} (f : α → Option β) :
    ∀ l : List α, (∀ x ∈ l, (f x).isSome = true) → (l.filterMap f).length = l.length := by
  intro l
  induction l with
  | nil => intro _; rfl
  | cons x xs ih =>
    intro h
    have hx := h x (List.mem_cons_self _ _)
    cases hfx : f x with
    | none => rw [hfx] at hx; cases hx
    | some v =>
      rw [List.filterMap_cons, hfx, List.length_cons, List.length_cons,
        ih (fun y hy => h y (List.mem_cons_of_mem _ hy))]

theorem segment_digits (params : List Char)
    (hchars : ∀ c ∈ params, c = ';' ∨ isdigit c = true) :
    ∀ seg ∈ params.splitOn ';', ∀ c ∈ seg, isdigit c = true := by
  intro seg hseg c hc
  obtain ⟨hmem, hne⟩ := mem_splitOnP (· == ';') params seg hseg c hc
  rcases hchars c hmem with h | h
  · subst h; simp at hne
  · exact h

theorem long_to_int_small (v : Nat) (h : v < 2 ^ 31) : long_to_int (v : Int) = (v : Int) := by
  unfold long_to_int
  have h31 : (2 : Int) ^ 31 = 2147483648 := by norm_num
  have h32 : (2 : Int) ^ 32 = 4294967296 := by norm_num
  have hv : v < 2147483648 := by
    have : (2 : Nat) ^ 31 = 2147483648 := by norm_num
    omega
  rw [h31, h32]
  omega

theorem parse_params_eq (long_max : Nat) (e : Emulator)
    (hchars : ∀ c ∈ e.params, c = ';' ∨ isdigit c = true) :
    e.parse_params long_max = { e with
      parsed_params := (e.params.splitOn ';').filterMap (segment_entry long_max) } := by
  have h := parse_params_loop_eq long_max e.params [] [] (by intro x hx; cases hx) hchars
  simp only [List.nil_append] at h
  simp only [Emulator.parse_params, h]

/-- C7. When `params` holds only digits and `;` and no run of digits is longer than 9,
`parse_params` sets `parsed_params` to the list got by splitting `params` on `;` (empty
segments kept) and mapping each segment, left to right, to `-1` when empty and to its
decimal value otherwise, and changes nothing else; `1;;3` gives `[1, -1, 3]` and the
empty string gives `[-1]`.  (`LONG_MAX` is at least `2^31 - 1`, as ISO C requires.) -/
theorem parse_params_spec (long_max : Nat) (e : Emulator)
    (hlm : 2 ^ 31 - 1 ≤ long_max)
    (hchars : ∀ c ∈ e.params, c = ';' ∨ isdigit c = true)
    (hruns : ∀ seg ∈ e.params.splitOn ';', seg.length ≤ 9) :
    e.parse_params long_max = { e with parsed_params := spec_parse_params e.params } ∧
    (({ e with params := ['1', ';', ';', '3'] } : Emulator).parse_params
        long_max).parsed_params = [1, -1, 3] ∧
    (({ e with params := [] } : Emulator).parse_params long_max).parsed_params = [-1] := by
  have hpow : (2 : Nat) ^ 31 = 2147483648 := by norm_num
  have key : ∀ params : List Char, (∀ c ∈ params, c = ';' ∨ isdigit c = true) →
      (∀ seg ∈ params.splitOn ';', seg.length ≤ 9) →
      (params.splitOn ';').filterMap (segment_entry long_max) = spec_parse_params params := by
    intro params hc hr
    unfold spec_parse_params
    apply filterMap_eq_map_of_forall
    intro seg hseg
    have hd := segment_digits params hc seg hseg
    have hlt := spec_decimal_lt seg hd
    have hle : 10 ^ seg.length ≤ 10 ^ 9 := Nat.pow_le_pow_right (by decide) (hr seg hseg)
    have h9 : (10 : Nat) ^ 9 = 1000000000 := by norm_num
    unfold segment_entry spec_param_value
    by_cases hnil : seg = []
    · simp [hnil]
    · have hbig : ¬ spec_decimal seg > long_max := by omega
      rw [if_neg hnil, if_neg hbig, if_neg hnil, long_to_int_small _ (by omega)]
  refine ⟨?_, ?_, ?_⟩
  · rw [parse_params_eq long_max e hchars, key e.params hchars hruns]
  · have hc : ∀ c ∈ ['1', ';', ';', '3'], c = ';' ∨ isdigit c = true := by decide
    rw [parse_params_eq long_max _ hc]
    show (List.splitOn ';' ['1', ';', ';', '3']).filterMap (segment_entry long_max) = _
    rw [key _ hc (by decide)]
    decide
  · rw [parse_params_eq long_max _ (by intro c hc; cases hc)]
    show (List.splitOn ';' []).filterMap (segment_entry long_max) = _
    rw [key _ (by intro c hc; cases hc) (by decide)]
    decide

/-- The parameter string `1;;3` with `LONG_MAX = 2^63 - 1`. -/
theorem parse_params_spec_witness :
    2 ^ 31 - 1 ≤ 2 ^ 63 - 1 ∧
    (∀ c ∈ params_sample.params, c = ';' ∨ isdigit c = true) ∧
    (∀ seg ∈ params_sample.params.splitOn ';', seg.length ≤ 9) ∧
    params_sample.parse_params (2 ^ 63 - 1)
        = { params_sample with parsed_params := spec_parse_params params_sample.params } ∧
    (({ params_sample with params := ['1', ';', ';', '3'] } : Emulator).parse_params
        (2 ^ 63 - 1)).parsed_params = [1, -1, 3] ∧
    (({ params_sample with params := [] } : Emulator).parse_params
        (2 ^ 63 - 1)).parsed_params = [-1] :=
  ⟨by norm_num, by decide, by decide,
    parse_params_spec (2 ^ 63 - 1) params_sample (by norm_num) (by decide) (by decide)⟩

/-- C8 (as amended). When `params` holds only digits and `;`, `parse_params` returns and
`parsed_params` holds, in segment order, one integer for each segment that is empty or whose
value is at most `LONG_MAX`, and nothing for a segment whose value is above `LONG_MAX`; it
has at most (number of `;`) + 1 entries, and exactly that many when no segment is above
`LONG_MAX`. -/
theorem parse_params_entries (long_max : Nat) (e : Emulator)
    (hchars : ∀ c ∈ e.params, c = ';' ∨ isdigit c = true) :
    e.parse_params long_max = { e with
      parsed_params := (e.params.splitOn ';').filterMap (segment_entry long_max) } ∧
    (e.parse_params long_max).parsed_params.length ≤ e.params.count ';' + 1 ∧
    ((∀ seg ∈ e.params.splitOn ';', spec_decimal seg ≤ long_max) →
      (e.parse_params long_max).parsed_params.length = e.params.count ';' + 1) := by
  have hlen : (e.params.splitOn ';').length = e.params.count ';' + 1 :=
    length_splitOnP (· == ';') e.params
  have heq := parse_params_eq long_max e hchars
  refine ⟨heq, ?_, ?_⟩
  · rw [heq, ← hlen]
    exact List.length_filterMap_le _ _
  · intro hall
    rw [heq, ← hlen]
    apply length_filterMap_of_forall_isSome
    intro seg hseg
    unfold segment_entry
    by_cases hnil : seg = []
    · simp [hnil]
    · have hbig : ¬ spec_decimal seg > long_max := by
        have := hall seg hseg; omega
      simp [hnil, hbig]

/-- Twenty digits `9`, then `;5`, with `LONG_MAX = 2^63 - 1`. -/
theorem parse_params_entries_witness :
    (∀ c ∈ params_shifted.params, c = ';' ∨ isdigit c = true) ∧
    params_shifted.parse_params (2 ^ 63 - 1) = { params_shifted with
      parsed_params :=
        (params_shifted.params.splitOn ';').filterMap (segment_entry (2 ^ 63 - 1)) } ∧
    (params_shifted.parse_params (2 ^ 63 - 1)).parsed_params.length
      ≤ params_shifted.params.count ';' + 1 ∧
    ((∀ seg ∈ params_shifted.params.splitOn ';', spec_decimal seg ≤ 2 ^ 63 - 1) →
      (params_shifted.parse_params (2 ^ 63 - 1)).parsed_params.length
        = params_shifted.params.count ';' + 1) :=
  ⟨by decide, parse_params_entries (2 ^ 63 - 1) params_shifted (by decide)⟩

/-- C8 (counterexample). With `LONG_MAX = 2^63 - 1`, a parameter string of 100 digits `9`
(no `;`, one segment) leaves `parsed_params` empty, not with one entry; and for twenty
digits `9` followed by `;5` (two segments) `parsed_params` is `[5]`, so that entry 0 is the
value of the second segment. -/
theorem parse_params_drops_overflow :
    params_overflow.params.length ≤ 100 ∧
    (∀ c ∈ params_overflow.params, c = ';' ∨ isdigit c = true) ∧
    params_overflow.params.count ';' + 1 = 1 ∧
    (params_overflow.parse_params (2 ^ 63 - 1)).parsed_params = [] ∧
    params_shifted.params.count ';' + 1 = 2 ∧
    (params_shifted.parse_params (2 ^ 63 - 1)).parsed_params = [5] := by
  refine ⟨by decide, by decide, by decide, ?_, by decide, ?_⟩
  · decide!
  · rfl
/-! ## C9: `getparam` -/

/-- C9. `getparam(N, d)` is `parsed_params[N]` when `N` is in range and the stored value is
at least 1, and `d` in every other case; `getparam(5, 7)` on a three-element list is 7
and `getparam(0, 7)` on a stored 0 is 7. -/
theorem getparam_spec (e : Emulator) (N : Nat) (d : Int) :
    e.getparam N d =
        (match e.parsed_params[N]? with
         | some v => if 1 ≤ v then v else d
         | none => d) ∧
      ({ e with parsed_params := [1, -1, 3] } : Emulator).getparam 5 7 = 7 ∧
      ({ e with parsed_params := [0] } : Emulator).getparam 0 7 = 7 := by
  refine ⟨?_, by simp [Emulator.getparam], by simp [Emulator.getparam]⟩
  unfold Emulator.getparam
  by_cases h : N < e.parsed_params.length
  · have h1 : e.parsed_params.length > N := h
    rw [List.getElem?_eq_getElem h]
    simp only [h1, if_true, List.getD_eq_getElem?_getD, List.getElem?_eq_getElem h,
      Option.getD_some]
    by_cases hv : 1 ≤ e.parsed_params[N]
    · simp [hv]
    · simp [hv]
  · have h1 : ¬ e.parsed_params.length > N := h
    rw [List.getElem?_eq_none (by omega)]
    simp [h1]
/-! ## C10: combining characters -/

/-- C10 (code at the failing input). On a fresh grid of width 1 and height 3, printing `a`,
`b`, `c` returns with `c` alone in the cell at row 2, the combining anchor on that cell and
`cursor_row = 2`; printing the combining character U+0301 next stops at the assertion of
line 151 (`cursor_row <= width`) and appends nothing.  On a fresh 2x1 grid the same check
passes: after `a` and seventeen U+0301 the cell holds `a` and fifteen marks, and the
cursor is where `a` left it. -/
theorem combining_stops_at_row_assertion :
    (∃ e, Emulator.run wcwidth_sample
        [.print { char_present := true, ch := 0x61 },
         .print { char_present := true, ch := 0x62 },
         .print { char_present := true, ch := 0x63 }] (Emulator.new 1 3) = .ok e ∧
      e.rows.load { row := 2, col := 0 } = .ok { Cell.new with contents := [0x63] } ∧
      e.combining_char_row = 2 ∧ e.combining_char_col = 0 ∧
      e.cursor_row = 2 ∧ e.cursor_col = 1 ∧
      wcwidth_sample 0x301 = 0 ∧
      e.print wcwidth_sample { char_present := true, ch := 0x301 }
        = .error (.assertion 151)) ∧
    (∃ e1 e2, (Emulator.new 2 1).print wcwidth_sample { char_present := true, ch := 0x61 }
        = .ok e1 ∧
      Emulator.run wcwidth_sample
        (List.replicate 17 (.print { char_present := true, ch := 0x301 })) e1 = .ok e2 ∧
      e2.rows.load { row := 0, col := 0 }
        = .ok { Cell.new with contents := 0x61 :: List.replicate 15 0x301 } ∧
      e2.cursor_row = e1.cursor_row ∧ e2.cursor_col = e1.cursor_col) :=
  ⟨⟨_, rfl, rfl, rfl, rfl, rfl, rfl, rfl, rfl⟩, ⟨_, _, rfl, rfl, rfl, rfl, rfl⟩⟩
/-! ## C11: `param` -/

theorem param_all_eq : ∀ (s : List Nat) (e : Emulator),
    (∀ b ∈ s, b = 59 ∨ (48 ≤ b ∧ b ≤ 57)) →
    Emulator.param_all s e = .ok { e with
      params := e.params ++ (s.take (100 - e.params.length)).map Char.ofNat } := by
  intro s
  induction s with
  | nil => intro e _; simp [Emulator.param_all]
  | cons b rest ih =>
    intro e hs
    have hb : b = 59 ∨ (48 ≤ b ∧ b ≤ 57) := hs b (List.mem_cons_self _ _)
    have hrest : ∀ x ∈ rest, x = 59 ∨ (48 ≤ x ∧ x ≤ 57) :=
      fun x hx => hs x (List.mem_cons_of_mem _ hx)
    by_cases hlen : e.params.length < 100
    · have hp : e.param { char_present := true, ch := b }
          = .ok { e with params := e.params ++ [Char.ofNat b] } := by
        simp [Emulator.param, hb, hlen]
      rw [Emulator.param_all, hp]
      simp only
      rw [ih _ hrest]
      have h1 : 100 - e.params.length = (100 - (e.params.length + 1)) + 1 := by omega
      simp only [List.length_append, List.length_singleton]
      rw [h1, List.take_succ_cons, List.map_cons, List.append_assoc, List.singleton_append]
    · have hp : e.param { char_present := true, ch := b } = .ok e := by
        simp [Emulator.param, hb, hlen]
      rw [Emulator.param_all, hp]
      simp only
      rw [ih _ hrest]
      have h0 : 100 - e.params.length = 0 := by omega
      simp [h0]

/-- C11. Starting from the empty `params` that `clear()` leaves, applying `param` to every
byte of a sequence of ASCII digits and `;` returns, and `params` is then the first
`min(|s|, 100)` characters of the sequence: never more than 100 characters, and exactly
the first 100 of a sequence of 150. -/
theorem param_accumulates (e : Emulator) (s : List Nat)
    (hs : ∀ b ∈ s, b = 59 ∨ (48 ≤ b ∧ b ≤ 57)) :
    ∃ e2, Emulator.param_all s e.clear = .ok e2 ∧
      e2 = { e.clear with params := (s.take (min s.length 100)).map Char.ofNat } ∧
      e2.params.length = min s.length 100 ∧ e2.params.length ≤ 100 ∧
      (s.length = 150 → e2.params = (s.take 100).map Char.ofNat) := by
  have h := param_all_eq s e.clear hs
  have hc : e.clear.params = [] := rfl
  have htake : s.take (min s.length 100) = s.take 100 := by
    rcases Nat.lt_or_ge s.length 100 with hl | hl
    · rw [Nat.min_eq_left (Nat.le_of_lt hl), List.take_of_length_le (Nat.le_refl _),
        List.take_of_length_le (Nat.le_of_lt hl)]
    · rw [Nat.min_eq_right hl]
  refine ⟨_, h, ?_, ?_, ?_, ?_⟩
  · simp only [hc, List.length_nil, Nat.sub_zero, List.nil_append, htake]
  · simp only [hc, List.length_nil, Nat.sub_zero, List.nil_append, List.length_map,
      List.length_take]
    omega
  · simp only [hc, List.length_nil, Nat.sub_zero, List.nil_append, List.length_map,
      List.length_take]
    omega
  · intro _
    simp only [hc, List.length_nil, Nat.sub_zero, List.nil_append]

/-- A sequence of 150 digits `7` fed to a fresh 80x24 emulator. -/
theorem param_accumulates_witness :
    (∀ b ∈ List.replicate 150 55, b = 59 ∨ (48 ≤ b ∧ b ≤ 57)) ∧
    ∃ e2, Emulator.param_all (List.replicate 150 55) (Emulator.new 80 24).clear = .ok e2 ∧
      e2 = { (Emulator.new 80 24).clear with
        params := ((List.replicate 150 55).take
          (min (List.replicate 150 55).length 100)).map Char.ofNat } ∧
      e2.params.length = min (List.replicate 150 55).length 100 ∧ e2.params.length ≤ 100 ∧
      ((List.replicate 150 55).length = 150 →
        e2.params = ((List.replicate 150 55).take 100).map Char.ofNat) :=
  ⟨by intro b hb; rw [List.eq_of_mem_replicate hb]; decide,
   param_accumulates (Emulator.new 80 24) (List.replicate 150 55)
    (by intro b hb; rw [List.eq_of_mem_replicate hb]; decide)⟩
/-! ## C12, C14, C15, C17: the code at the failing inputs -/

/-- C12 (code at the failing input). On a fresh grid of width 2 and height 4, three line
feeds return a state with `cursor_row = 3 < height`, `cursor_col = 0 ≤ width` and every cell
blank (so no cell is both leading and trailing); printing the wide character U+4E00 there
stops at the assertion of line 151 and places nothing.  On a fresh 2x2 grid, where that
check passes, the fifth printed letter wraps from the end of the last row: the grid
scrolls by one and the letter is alone in column 0 of the last row, with the anchor on it
and the cursor one column further. -/
theorem print_target_stops_at_row_assertion :
    (∃ e, Emulator.run wcwidth_sample
        [.execute { char_present := true, ch := 0x0a },
         .execute { char_present := true, ch := 0x0a },
         .execute { char_present := true, ch := 0x0a }] (Emulator.new 2 4) = .ok e ∧
      0 < e.width ∧ 0 < e.height ∧
      0 ≤ e.cursor_row ∧ e.cursor_row < (e.height : Int) ∧
      0 ≤ e.cursor_col ∧ e.cursor_col ≤ (e.width : Int) ∧
      (∀ row ∈ e.rows.elems, ∀ c ∈ row.cells, c = Cell.new) ∧
      wcwidth_sample 0x4e00 = 2 ∧
      e.print wcwidth_sample { char_present := true, ch := 0x4e00 }
        = .error (.assertion 151)) ∧
    (∃ e1 e2, Emulator.run wcwidth_sample
        [.print { char_present := true, ch := 0x61 },
         .print { char_present := true, ch := 0x62 },
         .print { char_present := true, ch := 0x63 },
         .print { char_present := true, ch := 0x64 }] (Emulator.new 2 2) = .ok e1 ∧
      e1.cursor_row = 1 ∧ e1.cursor_col = 2 ∧
      e1.print wcwidth_sample { char_present := true, ch := 0x65 } = .ok e2 ∧
      e2.rows.popped = e1.rows.popped + 1 ∧
      e2.rows.load { row := 2, col := 0 } = .ok { Cell.new with contents := [0x65] } ∧
      e2.combining_char_row = 1 ∧ e2.combining_char_col = 0 ∧
      e2.cursor_row = 1 ∧ e2.cursor_col = 1) :=
  ⟨⟨_, rfl, by decide, by decide, by decide, by decide, by decide, by decide, by decide,
      rfl, rfl⟩,
   ⟨_, _, rfl, rfl, rfl, rfl, rfl, rfl, rfl, rfl, rfl, rfl⟩⟩

/-- C14 (code at the failing input). On a fresh 1x1 grid, printing the wide character
U+4E00 returns with the character in the only cell and `cursor_col = 2`, two past the
last column and more than `width = 1`. -/
theorem cursor_col_two_past_last_column :
    ∃ e, Emulator.run wcwidth_sample [.print { char_present := true, ch := 0x4e00 }]
        (Emulator.new 1 1) = .ok e ∧
      e.rows.load { row := 0, col := 0 } = .ok { Cell.new with contents := [0x4e00] } ∧
      e.width = 1 ∧ e.cursor_col = 2 ∧ ¬ (e.cursor_col ≤ (e.width : Int)) :=
  ⟨_, rfl, rfl, rfl, rfl, by decide⟩

/-- C15 (code at the failing input). On an emulator built with height 0 (0x0 or 5x0) a line
feed makes `autoscroll` call `scroll`, whose `pop_front` runs on the empty deque; `print`
on the same emulators returns them unchanged. -/
theorem line_feed_pops_empty_grid :
    (Emulator.new 0 0).execute { char_present := true, ch := 0x0a } = .error .undefined ∧
    (Emulator.new 0 0).rows.pop_front = .error .undefined ∧
    (Emulator.new 5 0).execute { char_present := true, ch := 0x0a } = .error .undefined ∧
    (Emulator.new 0 0).print wcwidth_sample { char_present := true, ch := 0x61 }
      = .ok (Emulator.new 0 0) ∧
    (Emulator.new 5 0).print wcwidth_sample { char_present := true, ch := 0x61 }
      = .ok (Emulator.new 5 0) :=
  ⟨rfl, rfl, rfl, rfl, rfl⟩

/-- C17 (code at the failing input). On a fresh 2x1 grid a line feed scrolls by one and
returns with `combining_char_row = -1`, above the grid; printing the combining character
U+0301 next subscripts `rows` with that row. -/
theorem anchor_scrolls_off_grid :
    ∃ e, Emulator.run wcwidth_sample [.execute { char_present := true, ch := 0x0a }]
        (Emulator.new 2 1) = .ok e ∧
      e.combining_char_row = -1 ∧ e.combining_char_col = 0 ∧
      ¬ (0 ≤ e.combining_char_row) ∧
      wcwidth_sample 0x301 = 0 ∧
      e.rows.addr e.combining_char_row e.combining_char_col = .error .undefined ∧
      e.print wcwidth_sample { char_present := true, ch := 0x301 } = .error .undefined :=
  ⟨_, rfl, rfl, rfl, by decide, rfl, rfl, rfl⟩

/-! ## C16, C18: `clear` and `CSI_dispatch` -/

/-- C16 (as amended). After `clear()`, `params` and `dispatch_chars` are empty, and
`parsed_params`, the grid, the cursor position, the combining anchor and every other
member are unchanged. -/
theorem clear_spec (e : Emulator) :
    e.clear.params = [] ∧ e.clear.dispatch_chars = [] ∧
    e.clear.parsed_params = e.parsed_params ∧
    e.clear.rows = e.rows ∧
    e.clear.cursor_row = e.cursor_row ∧ e.clear.cursor_col = e.cursor_col ∧
    e.clear.combining_char_row = e.combining_char_row ∧
    e.clear.combining_char_col = e.combining_char_col ∧
    e.clear.width = e.width ∧ e.clear.height = e.height ∧
    e.clear.terminal_to_host = e.terminal_to_host ∧ e.clear.errors = e.errors :=
  ⟨rfl, rfl, rfl, rfl, rfl, rfl, rfl, rfl, rfl, rfl, rfl, rfl⟩

/-- C16 (counterexample). After `parse_params` on the parameter string `1;;3`,
`parsed_params` is `[1, -1, 3]`, and it still is after `clear()`. -/
theorem clear_keeps_parsed_params :
    (params_sample.parse_params (2 ^ 63 - 1)).parsed_params = [1, -1, 3] ∧
    (params_sample.parse_params (2 ^ 63 - 1)).clear.parsed_params = [1, -1, 3] ∧
    (params_sample.parse_params (2 ^ 63 - 1)).clear.parsed_params ≠ [] :=
  ⟨by decide, by decide, by decide⟩

theorem shape_popped {d2 d : Deque} (h : d2.shape = d.shape) : d2.popped = d.popped := by
  simp only [Deque.shape, Prod.mk.injEq] at h
  exact h.1

theorem shape_row_lengths {d2 d : Deque} (h : d2.shape = d.shape) (i : Nat) :
    (d2.elems[i]?).map (fun row => row.cells.length)
      = (d.elems[i]?).map (fun row => row.cells.length) := by
  simp only [Deque.shape, Prod.mk.injEq] at h
  have h1 : (d2.elems.map (fun row => row.cells.length))[i]?
      = (d.elems.map (fun row => row.cells.length))[i]? := by rw [h.2]
  simpa only [List.getElem?_map] using h1

theorem shape_length {d2 d : Deque} (h : d2.shape = d.shape) :
    d2.elems.length = d.elems.length := by
  simp only [Deque.shape, Prod.mk.injEq] at h
  have h1 := congrArg List.length h.2
  simpa only [List.length_map] using h1

theorem rowsWidth_of_shape {d2 d : Deque} {w : Nat} (h : d2.shape = d.shape)
    (hw : d.RowsWidth w) : d2.RowsWidth w := by
  intro row hrow
  obtain ⟨i, hi, hget⟩ := List.getElem_of_mem hrow
  have h1 := shape_row_lengths h i
  rw [List.getElem?_eq_getElem hi, hget] at h1
  cases hr : d.elems[i]? with
  | none => rw [hr] at h1; simp at h1
  | some row1 =>
    rw [hr] at h1
    simp only [Option.map_some', Option.some.injEq] at h1
    rw [h1]
    exact hw row1 (List.getElem?_mem hr)

theorem cell_count_of_shape {d2 d : Deque} (h : d2.shape = d.shape) :
    d2.cell_count = d.cell_count := by
  simp only [Deque.shape, Prod.mk.injEq] at h
  simp only [Deque.cell_count, h.2]

theorem addr_of_shape {d2 d : Deque} (h : d2.shape = d.shape) (r c : Int) :
    d2.addr r c = d.addr r c := by
  have hp := shape_popped h
  have hl := shape_row_lengths h r.toNat
  unfold Deque.addr
  by_cases h0 : r < 0 ∨ c < 0
  · simp only [h0, if_true]
  · simp only [h0, if_false]
    cases h2 : d2.elems[r.toNat]? with
    | none =>
      rw [h2] at hl
      cases h1 : d.elems[r.toNat]? with
      | none => rfl
      | some row1 => rw [h1] at hl; simp at hl
    | some row2 =>
      rw [h2] at hl
      cases h1 : d.elems[r.toNat]? with
      | none => rw [h1] at hl; simp at hl
      | some row1 =>
        rw [h1] at hl
        simp only [Option.map_some', Option.some.injEq] at hl
        simp only [hl, hp]

theorem addr_ok {d : Deque} {r c : Int} {p : CellPtr} (h : d.addr r c = .ok p) :
    0 ≤ r ∧ 0 ≤ c ∧ p = { row := d.popped + r.toNat, col := c.toNat } ∧
      ∃ cell, d.load p = .ok cell := by
  unfold Deque.addr at h
  by_cases h0 : r < 0 ∨ c < 0
  · simp only [h0, if_true] at h; cases h
  · simp only [h0, if_false] at h
    cases hrow : d.elems[r.toNat]? with
    | none => rw [hrow] at h; cases h
    | some row =>
      rw [hrow] at h
      simp only at h
      by_cases hc : c.toNat < row.cells.length
      · simp only [hc, if_true] at h
        cases h
        refine ⟨by omega, by omega, rfl, row.cells[c.toNat], ?_⟩
        rw [load_eq_ok_iff]
        refine ⟨by simp, row, by simpa using hrow, ?_⟩
        exact List.getElem?_eq_getElem hc
      · simp only [hc, if_false] at h; cases h

theorem load_col_lt {d : Deque} {w : Nat} (hw : d.RowsWidth w) {p : CellPtr} {c : Cell}
    (h : d.load p = .ok c) : p.col < w := by
  obtain ⟨_, row, hrow, hc⟩ := (load_eq_ok_iff d p c).1 h
  have hmem : row ∈ d.elems := List.getElem?_mem hrow
  rw [← hw row hmem]
  rcases List.getElem?_eq_some.1 hc with ⟨hlt, _⟩
  exact hlt

theorem load_pop_front {d d2 : Deque} (h : d.pop_front = .ok d2) (x : CellPtr) :
    d2.load x = if x.row = d.popped then .error .undefined else d.load x := by
  unfold Deque.pop_front at h
  cases he : d.elems with
  | nil => rw [he] at h; cases h
  | cons r rest =>
    rw [he] at h
    simp only at h
    cases h
    unfold Deque.load
    simp only [he]
    by_cases h1 : x.row < d.popped + 1
    · by_cases h2 : x.row = d.popped
      · simp [h1, h2]
      · have h3 : x.row < d.popped := by omega
        simp [h1, h2, h3]
    · have h2 : ¬ x.row = d.popped := by omega
      have h3 : ¬ x.row < d.popped := by omega
      have h4 : x.row - d.popped = (x.row - (d.popped + 1)) + 1 := by omega
      simp only [h1, h2, h3, if_false]
      rw [h4, List.getElem?_cons_succ]

theorem load_push_back (d : Deque) (w : Nat) (x : CellPtr) :
    (d.push_back (Row.new w)).load x =
      if x.row = d.popped + d.elems.length then
        (if x.col < w then .ok Cell.new else .error .undefined)
      else d.load x := by
  unfold Deque.load Deque.push_back
  simp only
  by_cases h1 : x.row < d.popped
  · have h2 : ¬ x.row = d.popped + d.elems.length := by omega
    simp [h1, h2]
  · simp only [h1, if_false]
    by_cases h2 : x.row = d.popped + d.elems.length
    · have h3 : x.row - d.popped = d.elems.length := by omega
      simp only [h2, if_true, Nat.add_sub_cancel_left]
      rw [List.getElem?_append_right (Nat.le_refl _)]
      simp only [Nat.sub_self, List.getElem?_cons_zero, Row.new]
      by_cases h4 : x.col < w
      · simp [h4, List.getElem?_replicate]
      · simp [h4, List.getElem?_replicate]
    · simp only [h2, if_false]
      by_cases h3 : x.row - d.popped < d.elems.length
      · rw [List.getElem?_append_left h3]
      · have h4 : d.elems.length < x.row - d.popped := by omega
        rw [List.getElem?_eq_none (by simp; omega), List.getElem?_eq_none (by omega)]
/-! ## Taking `print`, `autoscroll` and `scroll` apart -/

theorem print_cases {wcwidth : Nat → Int} {act : Action} {e e2 : Emulator}
    (h : e.print wcwidth act = .ok e2) :
    e2 = e ∨
    (∃ chw : Int, (chw = 1 ∨ chw = 2) ∧ e.width ≠ 0 ∧ e.height ≠ 0 ∧
      e.cursor_row < (e.height : Int) ∧ e.print_base chw act.ch = .ok e2) ∨
    e.print_combining act.ch = .ok e2 := by
  unfold Emulator.print at h
  by_cases hcp : act.char_present = false
  · simp only [hcp, if_true] at h; cases h
  · simp only [hcp, if_false] at h
    by_cases hwh : e.width = 0 ∨ e.height = 0
    · simp only [hwh, if_true] at h
      cases h; exact Or.inl rfl
    · simp only [hwh, if_false] at h
      by_cases h150 : ¬ (e.cursor_row < (e.height : Int))
      · simp only [h150, if_true] at h; cases h
      · simp only [h150, if_false] at h
        by_cases h151 : ¬ (e.cursor_row ≤ (e.width : Int))
        · simp only [h151, if_true] at h; cases h
        · simp only [h151, if_false] at h
          by_cases hb : (if act.ch = 0 then (-1 : Int) else wcwidth act.ch) = 1 ∨
              (if act.ch = 0 then (-1 : Int) else wcwidth act.ch) = 2
          · simp only [hb, if_true] at h
            refine Or.inr (Or.inl ⟨_, hb, ?_, ?_, ?_, h⟩)
            · intro h0; exact hwh (Or.inl h0)
            · intro h0; exact hwh (Or.inr h0)
            · exact not_not.1 h150
          · simp only [hb, if_false] at h
            by_cases hz : (if act.ch = 0 then (-1 : Int) else wcwidth act.ch) = 0
            · simp only [hz, if_true] at h
              exact Or.inr (Or.inr h)
            · simp only [hz, if_false] at h
              by_cases hm : (if act.ch = 0 then (-1 : Int) else wcwidth act.ch) = -1
              · simp only [hm, if_true] at h
                cases h; exact Or.inl rfl
              · simp only [hm, if_false] at h; cases h

theorem print_base_inv {chw : Int} {ch : Nat} {e e3 : Emulator}
    (h : e.print_base chw ch = .ok e3) :
    ∃ e2 this d1 d2,
      Emulator.autoscroll (if e.cursor_col ≥ (e.width : Int) then
          { e with cursor_col := 0, cursor_row := e.cursor_row + 1 } else e) = .ok e2 ∧
      e2.rows.addr e2.cursor_row e2.cursor_col = .ok this ∧
      Cell.reset (e2.rows.cell_count + 1) this e2.rows = .ok d1 ∧
      d1.modify this (fun t => { t with contents := t.contents ++ [ch] }) = .ok d2 ∧
      ((¬ (e2.cursor_col < (e2.width : Int) - 1 ∧ chw = 2) ∧
          e3 = { e2 with rows := d2, combining_char_col := e2.cursor_col,
                         combining_char_row := e2.cursor_row,
                         cursor_col := e2.cursor_col + chw }) ∨
       ((e2.cursor_col < (e2.width : Int) - 1 ∧ chw = 2) ∧ ∃ next d3 d4,
          d2.addr e2.cursor_row (e2.cursor_col + 1) = .ok next ∧
          d2.modify this
            (fun t => { t with overlapped_cells := t.overlapped_cells ++ [next] }) = .ok d3 ∧
          d3.modify next (fun t => { t with overlapping_cell := some this }) = .ok d4 ∧
          e3 = { e2 with rows := d4, combining_char_col := e2.cursor_col,
                         combining_char_row := e2.cursor_row,
                         cursor_col := e2.cursor_col + chw })) := by
  unfold Emulator.print_base at h
  simp only at h
  cases h1 : Emulator.autoscroll (if e.cursor_col ≥ (e.width : Int) then
      { e with cursor_col := 0, cursor_row := e.cursor_row + 1 } else e) with
  | error x => rw [h1] at h; cases h
  | ok e2 =>
    rw [h1] at h
    simp only at h
    cases h2 : e2.rows.addr e2.cursor_row e2.cursor_col with
    | error x => rw [h2] at h; cases h
    | ok this =>
      rw [h2] at h
      simp only at h
      cases h3 : Cell.reset (e2.rows.cell_count + 1) this e2.rows with
      | error x => rw [h3] at h; cases h
      | ok d1 =>
        rw [h3] at h
        simp only at h
        cases h4 : d1.modify this (fun t => { t with contents := t.contents ++ [ch] }) with
        | error x => rw [h4] at h; cases h
        | ok d2 =>
          rw [h4] at h
          simp only [Emulator.newgrapheme] at h
          refine ⟨e2, this, d1, d2, rfl, h2, h3, h4, ?_⟩
          by_cases hl : e2.cursor_col < (e2.width : Int) - 1 ∧ chw = 2
          · right
            refine ⟨hl, ?_⟩
            simp only [hl, and_self, if_true] at h
            cases h5 : d2.addr e2.cursor_row (e2.cursor_col + 1) with
            | error x => rw [h5] at h; cases h
            | ok next =>
              rw [h5] at h
              simp only at h
              cases h6 : d2.modify this
                  (fun t => { t with overlapped_cells := t.overlapped_cells ++ [next] }) with
              | error x => rw [h6] at h; cases h
              | ok d3 =>
                rw [h6] at h
                simp only at h
                cases h7 : d3.modify next
                    (fun t => { t with overlapping_cell := some this }) with
                | error x => rw [h7] at h; cases h
                | ok d4 =>
                  rw [h7] at h
                  simp only [Except.ok.injEq] at h
                  exact ⟨next, d3, d4, rfl, h6, h7, by rw [hl.2]; exact h.symm⟩
          · left
            refine ⟨hl, ?_⟩
            simp only [hl, if_false, Except.ok.injEq] at h
            exact h.symm

theorem print_combining_inv {ch : Nat} {e e2 : Emulator}
    (h : e.print_combining ch = .ok e2) :
    e2 = e ∨ ∃ p d, e.rows.modify p (fun t => { t with contents := t.contents ++ [ch] })
      = .ok d ∧ e2 = { e with rows := d } := by
  unfold Emulator.print_combining at h
  cases h1 : e.rows.addr e.combining_char_row e.combining_char_col with
  | error x => rw [h1] at h; cases h
  | ok p =>
    rw [h1] at h
    simp only at h
    cases h2 : e.rows.load p with
    | error x => rw [h2] at h; cases h
    | ok c =>
      rw [h2] at h
      simp only at h
      by_cases hlen : c.contents.length < 16
      · simp only [hlen, if_true] at h
        cases h3 : e.rows.modify p (fun t => { t with contents := t.contents ++ [ch] }) with
        | error x => rw [h3] at h; cases h
        | ok d =>
          rw [h3] at h
          simp only [Except.ok.injEq] at h
          exact Or.inr ⟨p, d, h3, h.symm⟩
      · simp only [hlen, if_false, Except.ok.injEq] at h
        exact Or.inl h.symm

theorem scroll_loop_inv {n : Nat} {e e2 : Emulator} (h : Emulator.scroll_loop n e = .ok e2) :
    (n = 0 ∧ e2 = e) ∨
    (e.rows.elems ≠ [] ∧ e2 = { e with
        rows := { popped := e.rows.popped + n,
                  elems := e.rows.elems.drop n ++
                    List.replicate (min n e.rows.elems.length) (Row.new e.width) },
        cursor_row := e.cursor_row - n,
        combining_char_row := e.combining_char_row - n }) := by
  cases n with
  | zero =>
    simp only [Emulator.scroll_loop, Except.ok.injEq] at h
    exact Or.inl ⟨rfl, h.symm⟩
  | succ n =>
    right
    by_cases hne : e.rows.elems = []
    · simp [Emulator.scroll_loop, Deque.pop_front, hne] at h
    · refine ⟨hne, ?_⟩
      rw [scroll_loop_eq (n + 1) e hne] at h
      simp only [Except.ok.injEq] at h
      exact h.symm

theorem scroll_inv {N : Int} {e e2 : Emulator} (h : e.scroll N = .ok e2) :
    e2 = e ∨ (0 < N ∧ Emulator.scroll_loop N.toNat e = .ok e2) := by
  unfold Emulator.scroll at h
  by_cases h0 : N = 0
  · simp only [h0, if_true, Except.ok.injEq] at h
    exact Or.inl h.symm
  · simp only [h0, if_false] at h
    by_cases hp : N > 0
    · simp only [hp, if_true] at h
      exact Or.inr ⟨hp, h⟩
    · simp only [hp, if_false, Except.ok.injEq] at h
      exact Or.inl h.symm

theorem autoscroll_inv {e e2 : Emulator} (h : e.autoscroll = .ok e2) :
    (e.cursor_row < (e.height : Int) ∧ e2 = e) ∨
    (e.cursor_row ≥ (e.height : Int) ∧
      Emulator.scroll_loop (e.cursor_row - (e.height : Int) + 1).toNat e = .ok e2) := by
  unfold Emulator.autoscroll at h
  by_cases hc : e.cursor_row ≥ (e.height : Int)
  · simp only [hc, if_true] at h
    rcases scroll_inv h with h1 | ⟨_, h1⟩
    · right
      refine ⟨hc, ?_⟩
      exfalso
      unfold Emulator.scroll at h
      have h0 : ¬ (e.cursor_row - (e.height : Int) + 1 = 0) := by omega
      have hp : e.cursor_row - (e.height : Int) + 1 > 0 := by omega
      simp only [h0, hp, if_true, if_false] at h
      rcases scroll_loop_inv h with ⟨hz, _⟩ | ⟨_, he⟩
      · omega
      · rw [h1] at he
        have := congrArg Emulator.cursor_row he
        simp only at this
        omega
    · exact Or.inr ⟨hc, h1⟩
  · simp only [hc, if_false, Except.ok.injEq] at h
    exact Or.inl ⟨by omega, h.symm⟩

theorem execute_cases {act : Action} {e e2 : Emulator} (h : e.execute act = .ok e2) :
    Emulator.autoscroll { e with cursor_row := e.cursor_row + 1 } = .ok e2 ∨
    e2 = { e with cursor_col := 0 } ∨
    (e.cursor_col > 0 ∧ e2 = Emulator.newgrapheme { e with cursor_col := e.cursor_col - 1 }) ∨
    e2 = e := by
  unfold Emulator.execute at h
  split at h
  · cases h
  · split at h
    · exact Or.inl h
    · split at h
      · simp only [Except.ok.injEq] at h
        exact Or.inr (Or.inl h.symm)
      · split at h
        · split at h
          · rename_i hpos
            simp only [Except.ok.injEq] at h
            exact Or.inr (Or.inr (Or.inl ⟨hpos, h.symm⟩))
          · simp only [Except.ok.injEq] at h
            exact Or.inr (Or.inr (Or.inr h.symm))
        · simp only [Except.ok.injEq] at h
          exact Or.inr (Or.inr (Or.inr h.symm))
/-! ## C13: `autoscroll` and the cursor row -/

theorem autoscroll_range {h : Nat} {e e2 : Emulator} (hh : 0 < h) (hheight : e.height = h)
    (hlen : e.rows.elems.length = h) (h0 : 0 ≤ e.cursor_row)
    (ha : e.autoscroll = .ok e2) :
    e2.height = h ∧ e2.rows.elems.length = h ∧ 0 ≤ e2.cursor_row ∧
      e2.cursor_row < (h : Int) ∧ e2.width = e.width := by
  rcases autoscroll_inv ha with ⟨hlt, he⟩ | ⟨hge, hloop⟩
  · subst he
    exact ⟨hheight, hlen, h0, by rw [← hheight]; exact hlt, rfl⟩
  · rcases scroll_loop_inv hloop with ⟨hz, _⟩ | ⟨_, he⟩
    · omega
    · subst he
      refine ⟨hheight, ?_, ?_, ?_, rfl⟩
      · simp only [List.length_append, List.length_drop, List.length_replicate, hlen]
        omega
      · simp only
        omega
      · simp only
        omega

theorem print_base_frame {chw : Int} {ch : Nat} {e e3 : Emulator}
    (h : e.print_base chw ch = .ok e3) :
    ∃ e2, Emulator.autoscroll (if e.cursor_col ≥ (e.width : Int) then
          { e with cursor_col := 0, cursor_row := e.cursor_row + 1 } else e) = .ok e2 ∧
      e3.rows.shape = e2.rows.shape ∧ e3.cursor_row = e2.cursor_row ∧
      e3.width = e2.width ∧ e3.height = e2.height ∧
      e3.cursor_col = e2.cursor_col + chw := by
  obtain ⟨e2, this, d1, d2, ha, _, hreset, hm2, hcase⟩ := print_base_inv h
  have hs1 : d1.shape = e2.rows.shape := (reset_clearedFrom _ _ _ _ hreset).1
  obtain ⟨_, _, hs2, _, _⟩ := modify_spec hm2
  refine ⟨e2, ha, ?_⟩
  rcases hcase with ⟨_, he⟩ | ⟨_, next, d3, d4, _, hm3, hm4, he⟩
  · subst he
    exact ⟨hs2.trans hs1, rfl, rfl, rfl, rfl⟩
  · subst he
    obtain ⟨_, _, hs3, _, _⟩ := modify_spec hm3
    obtain ⟨_, _, hs4, _, _⟩ := modify_spec hm4
    exact ⟨hs4.trans (hs3.trans (hs2.trans hs1)), rfl, rfl, rfl, rfl⟩

theorem step_cursor_row {wcwidth : Nat → Int} {h : Nat} {s : Step} {e e2 : Emulator}
    (hh : 0 < h) (hheight : e.height = h) (hlen : e.rows.elems.length = h)
    (h0 : 0 ≤ e.cursor_row) (hlt : e.cursor_row < (h : Int))
    (hstep : e.step wcwidth s = .ok e2) :
    e2.height = h ∧ e2.rows.elems.length = h ∧ 0 ≤ e2.cursor_row ∧
      e2.cursor_row < (h : Int) := by
  cases s with
  | print act =>
    simp only [Emulator.step] at hstep
    rcases print_cases hstep with he | ⟨chw, _, _, _, _, hb⟩ | hc
    · subst he; exact ⟨hheight, hlen, h0, hlt⟩
    · obtain ⟨e1, ha, hs, hrow, _, hhe, _⟩ := print_base_frame hb
      have hr := autoscroll_range hh
        (by split <;> exact hheight) (by split <;> exact hlen)
        (by split
            · simp only; omega
            · exact h0) ha
      refine ⟨by rw [hhe]; exact hr.1, by rw [shape_length hs]; exact hr.2.1,
        by rw [hrow]; exact hr.2.2.1, by rw [hrow]; exact hr.2.2.2.1⟩
    · rcases print_combining_inv hc with he | ⟨p, d, hm, he⟩
      · subst he; exact ⟨hheight, hlen, h0, hlt⟩
      · subst he
        obtain ⟨_, _, hs, _, _⟩ := modify_spec hm
        exact ⟨hheight, by simp only [shape_length hs]; exact hlen, h0, hlt⟩
  | execute act =>
    simp only [Emulator.step] at hstep
    rcases execute_cases hstep with hlf | he | ⟨_, he⟩ | he
    · have hr := autoscroll_range hh (e := { e with cursor_row := e.cursor_row + 1 })
        hheight hlen (by simp only; omega) hlf
      exact ⟨hr.1, hr.2.1, hr.2.2.1, hr.2.2.2.1⟩
    · subst he; exact ⟨hheight, hlen, h0, hlt⟩
    · subst he; exact ⟨hheight, hlen, h0, hlt⟩
    · subst he; exact ⟨hheight, hlen, h0, hlt⟩

theorem run_cursor_row {wcwidth : Nat → Int} {h : Nat} (hh : 0 < h) :
    ∀ (steps : List Step) (e e2 : Emulator), e.height = h → e.rows.elems.length = h →
      0 ≤ e.cursor_row → e.cursor_row < (h : Int) →
      Emulator.run wcwidth steps e = .ok e2 →
      0 ≤ e2.cursor_row ∧ e2.cursor_row < (h : Int) := by
  intro steps
  induction steps with
  | nil =>
    intro e e2 _ _ h0 hlt hrun
    simp only [Emulator.run, Except.ok.injEq] at hrun
    subst hrun; exact ⟨h0, hlt⟩
  | cons s rest ih =>
    intro e e2 hheight hlen h0 hlt hrun
    simp only [Emulator.run] at hrun
    cases hs : e.step wcwidth s with
    | error x => rw [hs] at hrun; cases hrun
    | ok e1 =>
      rw [hs] at hrun
      obtain ⟨a, b, c, d⟩ := step_cursor_row hh hheight hlen h0 hlt hs
      exact ih e1 e2 a b c d hrun

/-- C13. With `height = h > 0` and a grid of `h` rows, `autoscroll` returns the state
unchanged when `cursor_row < h`; when `cursor_row >= h` it returns what
`scroll(cursor_row - h + 1)` returns, having popped exactly that many rows, with
`cursor_row = h - 1` and still `h` rows.  In every state a fresh emulator of height `h`
reaches by print and execute actions, `0 <= cursor_row <= h - 1`. -/
theorem autoscroll_keeps_cursor_on_grid (wcwidth : Nat → Int) (w h : Nat) (hh : 0 < h) :
    (∀ e : Emulator, e.height = h → e.rows.elems.length = h →
      (e.cursor_row < (h : Int) → e.autoscroll = .ok e) ∧
      (e.cursor_row ≥ (h : Int) → ∃ e2, e.autoscroll = .ok e2 ∧
        e.scroll (e.cursor_row - (h : Int) + 1) = .ok e2 ∧
        e2.rows.popped = e.rows.popped + (e.cursor_row - (h : Int) + 1).toNat ∧
        e2.cursor_row = (h : Int) - 1 ∧ e2.rows.elems.length = h)) ∧
    (∀ steps e, Emulator.run wcwidth steps (Emulator.new w h) = .ok e →
      0 ≤ e.cursor_row ∧ e.cursor_row ≤ (h : Int) - 1) := by
  constructor
  · intro e hheight hlen
    subst hheight
    constructor
    · intro hlt
      have hc : ¬ (e.cursor_row ≥ (e.height : Int)) := by omega
      simp only [Emulator.autoscroll, hc, if_false]
    · intro hge
      have hne : e.rows.elems ≠ [] := by
        intro h0; rw [h0] at hlen; simp at hlen; omega
      have hc : e.cursor_row ≥ (e.height : Int) := hge
      have hn0 : ¬ (e.cursor_row - (e.height : Int) + 1 = 0) := by omega
      have hnp : e.cursor_row - (e.height : Int) + 1 > 0 := by omega
      have hscroll : e.scroll (e.cursor_row - (e.height : Int) + 1)
          = Emulator.scroll_loop (e.cursor_row - (e.height : Int) + 1).toNat e := by
        simp only [Emulator.scroll, hn0, hnp, if_true, if_false]
      have hloop := scroll_loop_eq (e.cursor_row - (e.height : Int) + 1).toNat e hne
      refine ⟨{ e with
          rows := { popped := e.rows.popped + (e.cursor_row - (e.height : Int) + 1).toNat,
                    elems := e.rows.elems.drop (e.cursor_row - (e.height : Int) + 1).toNat ++
                      List.replicate (min (e.cursor_row - (e.height : Int) + 1).toNat
                        e.rows.elems.length) (Row.new e.width) },
          cursor_row := e.cursor_row - ((e.cursor_row - (e.height : Int) + 1).toNat : Nat),
          combining_char_row :=
            e.combining_char_row - ((e.cursor_row - (e.height : Int) + 1).toNat : Nat) },
        ?_, ?_, rfl, ?_, ?_⟩
      · simp only [Emulator.autoscroll, hc, if_true]
        rw [hscroll]; exact hloop
      · rw [hscroll]; exact hloop
      · simp only
        omega
      · simp only [List.length_append, List.length_drop, List.length_replicate, hlen]
        omega
  · intro steps e hrun
    have hr := run_cursor_row hh steps (Emulator.new w h) e rfl
      (by simp [Emulator.new]) (by simp [Emulator.new])
      (by simp only [Emulator.new]; omega) hrun
    omega

/-- An 80x24 emulator: the two cases of `autoscroll` and the bound on `cursor_row`. -/
theorem autoscroll_keeps_cursor_on_grid_witness :
    0 < 24 ∧
    (∀ e : Emulator, e.height = 24 → e.rows.elems.length = 24 →
      (e.cursor_row < ((24 : Nat) : Int) → e.autoscroll = .ok e) ∧
      (e.cursor_row ≥ ((24 : Nat) : Int) → ∃ e2, e.autoscroll = .ok e2 ∧
        e.scroll (e.cursor_row - ((24 : Nat) : Int) + 1) = .ok e2 ∧
        e2.rows.popped = e.rows.popped + (e.cursor_row - ((24 : Nat) : Int) + 1).toNat ∧
        e2.cursor_row = ((24 : Nat) : Int) - 1 ∧ e2.rows.elems.length = 24)) ∧
    (∀ steps e, Emulator.run wcwidth_sample steps (Emulator.new 80 24) = .ok e →
      0 ≤ e.cursor_row ∧ e.cursor_row ≤ ((24 : Nat) : Int) - 1) :=
  ⟨by decide, autoscroll_keeps_cursor_on_grid wcwidth_sample 80 24 (by decide)⟩
/-! ## The link invariant under the operations on the grid -/

theorem cellptr_eq (p q : CellPtr) (hr : p.row = q.row) (hc : p.col = q.col) : p = q := by
  cases p; cases q; simp only at hr hc; rw [hr, hc]

theorem next_row (p : CellPtr) : p.next.row = p.row := rfl

theorem next_col (p : CellPtr) : p.next.col = p.col + 1 := rfl

theorem next_ne (p : CellPtr) : p.next ≠ p := by
  intro h
  have := congrArg CellPtr.col h
  simp only [next_col] at this
  omega

theorem next_inj {p q : CellPtr} (h : p.next = q.next) : p = q := by
  have h1 := congrArg CellPtr.row h
  have h2 := congrArg CellPtr.col h
  simp only [next_row, next_col] at h1 h2
  exact cellptr_eq p q h1 (by omega)

/-- Changing only the `contents` of a cell keeps the link invariant. -/
theorem linksOK_modify_contents {d d2 : Deque} {p : CellPtr} {f : Cell → Cell}
    (hm : d.modify p f = .ok d2)
    (hf : ∀ c, (f c).overlapping_cell = c.overlapping_cell ∧
      (f c).overlapped_cells = c.overlapped_cells)
    (hok : d.LinksOK) : d2.LinksOK := by
  obtain ⟨c0, hc0, hs, hl, ho⟩ := modify_spec hm
  have hback : ∀ x cx, d2.load x = .ok cx → ∃ cy, d.load x = .ok cy ∧
      cx.overlapping_cell = cy.overlapping_cell ∧
      cx.overlapped_cells = cy.overlapped_cells := by
    intro x cx hx
    by_cases hxp : x = p
    · subst hxp
      rw [hl] at hx
      cases hx
      exact ⟨c0, hc0, (hf c0).1, (hf c0).2⟩
    · rw [ho x hxp] at hx
      exact ⟨cx, hx, rfl, rfl⟩
  have hfwd : ∀ x cy, d.load x = .ok cy → ∃ cx, d2.load x = .ok cx ∧
      cx.overlapping_cell = cy.overlapping_cell ∧
      cx.overlapped_cells = cy.overlapped_cells := by
    intro x cy hx
    by_cases hxp : x = p
    · subst hxp
      rw [hc0] at hx
      cases hx
      exact ⟨f c0, hl, (hf c0).1, (hf c0).2⟩
    · exact ⟨cy, by rw [ho x hxp]; exact hx, rfl, rfl⟩
  intro x cx hx
  obtain ⟨cy, hy, h1, h2⟩ := hback x cx hx
  obtain ⟨a, b, c⟩ := hok x cy hy
  refine ⟨by rw [h2]; exact a, ?_, ?_⟩
  · intro hov
    obtain ⟨t, ht, hto⟩ := b (by rw [← h2]; exact hov)
    obtain ⟨t2, ht2, h3, _⟩ := hfwd _ t ht
    exact ⟨t2, ht2, by rw [h3]; exact hto⟩
  · intro L hL
    obtain ⟨hn, l, hl1, hl2⟩ := c L (by rw [← h1]; exact hL)
    obtain ⟨l2, hl3, _, h4⟩ := hfwd _ l hl1
    exact ⟨hn, l2, hl3, by rw [h4]; exact hl2⟩

/-- One turn of the loop of `scroll` keeps the shape and the link invariant. -/
theorem pop_push_ok {d d1 : Deque} {w h : Nat} (hp : d.pop_front = .ok d1)
    (hlen : d.elems.length = h) (hw : d.RowsWidth w) (hok : d.LinksOK) :
    (d1.push_back (Row.new w)).elems.length = h ∧
    (d1.push_back (Row.new w)).RowsWidth w ∧
    (d1.push_back (Row.new w)).LinksOK := by
  have hload := load_pop_front hp
  unfold Deque.pop_front at hp
  cases he : d.elems with
  | nil => rw [he] at hp; cases hp
  | cons r rest =>
    rw [he] at hp
    simp only [Except.ok.injEq] at hp
    have hd1e : d1.elems = rest := by rw [← hp]
    have hd1p : d1.popped = d.popped + 1 := by rw [← hp]
    refine ⟨?_, ?_, ?_⟩
    · simp only [Deque.push_back, hd1e, List.length_append, List.length_singleton]
      rw [he] at hlen
      simpa using hlen
    · intro row hrow
      simp only [Deque.push_back, hd1e, List.mem_append, List.mem_singleton] at hrow
      rcases hrow with h1 | h1
      · exact hw row (by rw [he]; exact List.mem_cons_of_mem _ h1)
      · rw [h1]; simp [Row.new]
    · have hsame : ∀ x : CellPtr, x.row ≠ d.popped →
          x.row ≠ d1.popped + d1.elems.length →
          (d1.push_back (Row.new w)).load x = d.load x := by
        intro x h1 h2
        rw [load_push_back, if_neg h2, hload x, if_neg h1]
      intro x cx hx
      by_cases hnew : x.row = d1.popped + d1.elems.length
      · rw [load_push_back, if_pos hnew] at hx
        by_cases hcol : x.col < w
        · rw [if_pos hcol] at hx
          cases hx
          refine ⟨Or.inl rfl, ?_, ?_⟩
          · intro habs; cases habs
          · intro L habs; cases habs
        · rw [if_neg hcol] at hx; cases hx
      · have hnp : x.row ≠ d.popped := by
          intro hxp
          rw [load_push_back, if_neg hnew, hload x, if_pos hxp] at hx
          cases hx
        rw [hsame x hnp hnew] at hx
        obtain ⟨a, b, c⟩ := hok x cx hx
        refine ⟨a, ?_, ?_⟩
        · intro hov
          obtain ⟨t, ht, hto⟩ := b hov
          exact ⟨t, by rw [hsame x.next hnp hnew]; exact ht, hto⟩
        · intro L hL
          obtain ⟨hn, l, hl1, hl2⟩ := c L hL
          have hLr : L.row = x.row := by rw [← hn]; rfl
          have hLl : (d1.push_back (Row.new w)).load L = .ok l := by
            rw [hsame L (by rw [hLr]; exact hnp) (by rw [hLr]; exact hnew)]
            exact hl1
          exact ⟨hn, l, hLl, hl2⟩

theorem scroll_loop_ok {w h : Nat} : ∀ (n : Nat) (e e2 : Emulator),
    Emulator.scroll_loop n e = .ok e2 → e.GridOK w h → e2.GridOK w h := by
  intro n
  induction n with
  | zero =>
    intro e e2 hs hg
    simp only [Emulator.scroll_loop, Except.ok.injEq] at hs
    subst hs; exact hg
  | succ n ih =>
    intro e e2 hs hg
    simp only [Emulator.scroll_loop] at hs
    cases hp : e.rows.pop_front with
    | error x => rw [hp] at hs; cases hs
    | ok d1 =>
      rw [hp] at hs
      simp only at hs
      obtain ⟨hwd, hht, hlen, hrw, hok⟩ := hg
      obtain ⟨a, b, c⟩ := pop_push_ok hp hlen hrw hok
      apply ih _ _ hs
      exact ⟨hwd, hht, by rw [hwd]; exact a, by rw [hwd]; exact b, by rw [hwd]; exact c⟩

theorem scroll_ok {w h : Nat} {N : Int} {e e2 : Emulator}
    (hs : e.scroll N = .ok e2) (hg : e.GridOK w h) : e2.GridOK w h := by
  rcases scroll_inv hs with he | ⟨_, hl⟩
  · subst he; exact hg
  · exact scroll_loop_ok _ _ _ hl hg

theorem autoscroll_ok {w h : Nat} {e e2 : Emulator}
    (hs : e.autoscroll = .ok e2) (hg : e.GridOK w h) : e2.GridOK w h := by
  rcases autoscroll_inv hs with ⟨_, he⟩ | ⟨_, hl⟩
  · subst he; exact hg
  · exact scroll_loop_ok _ _ _ hl hg
theorem cell_blank_of {c : Cell} (h1 : c.overlapping_cell = none)
    (h2 : c.overlapped_cells = []) :
    ({ c with contents := [] } : Cell) = Cell.new := by
  cases c
  simp only at h1 h2
  simp only [Cell.new, h1, h2]

/-- `reset()` on a cell `q` that is not a trailing cell, in a row whose cells from `q`
on span nothing or their right neighbour: the call returns, the cells `q .. q + k` of the
chain of links that starts at `q` are blank afterwards and no other cell has changed. -/
theorem reset_chain : ∀ (n fuel : Nat) (q : CellPtr) (d : Deque) (c : Cell) (rl : Nat),
    d.load q = .ok c → c.overlapping_cell = none →
    (∀ x cx, d.load x = .ok cx → x.row = q.row → q.col ≤ x.col →
      x.col < rl ∧ (cx.overlapped_cells = [] ∨
        (cx.overlapped_cells = [x.next] ∧ ∃ t, d.load x.next = .ok t))) →
    rl - q.col ≤ n → n < fuel →
    ∃ d2 k, Cell.reset fuel q d = .ok d2 ∧ d2.shape = d.shape ∧
      (∀ x : CellPtr, x.row = q.row → q.col ≤ x.col → x.col ≤ q.col + k →
        d2.load x = .ok Cell.new) ∧
      (∀ x : CellPtr, ¬ (x.row = q.row ∧ q.col ≤ x.col ∧ x.col ≤ q.col + k) →
        d2.load x = d.load x) ∧
      (∃ ce, d.load { row := q.row, col := q.col + k } = .ok ce ∧
        ce.overlapped_cells = []) := by
  intro n
  induction n with
  | zero =>
    intro fuel q d c rl hc _ hfwd hn _
    have := (hfwd q c hc rfl (Nat.le_refl _)).1
    omega
  | succ n ih =>
    intro fuel q d c rl hc hnone hfwd hn hfuel
    obtain ⟨f, rfl⟩ : ∃ f, fuel = f + 1 := ⟨fuel - 1, by omega⟩
    obtain ⟨hqlt, hq⟩ := hfwd q c hc rfl (Nat.le_refl _)
    rcases hq with hov | ⟨hov, t, ht⟩
    · -- the chain is `q` alone
      obtain ⟨d1, hreset, hs1, hl1, ho1⟩ := reset_no_overlapped f hc hov
      refine ⟨d1, 0, hreset, hs1, ?_, ?_, ?_⟩
      · intro x hxr hx1 hx2
        have hxq : x = q := cellptr_eq x q hxr (by omega)
        rw [hxq, hl1, cell_blank_of hnone hov]
      · intro x hx
        apply ho1
        intro hxq
        apply hx
        rw [hxq]
        exact ⟨rfl, Nat.le_refl _, Nat.le_refl _⟩
      · exact ⟨c, hc, hov⟩
    · -- `q` spans `q.next`
      obtain ⟨d1, hm1, hs1, hl1, ho1⟩ :=
        modify_of_load (fun t => { t with contents := [] }) hc
      have ht1 : d1.load q.next = .ok t := by rw [ho1 _ (next_ne q)]; exact ht
      obtain ⟨d1b, hm1b, hs1b, hl1b, ho1b⟩ :=
        modify_of_load (fun t => { t with overlapping_cell := none }) ht1
      have hsame : ∀ x : CellPtr, x ≠ q → x ≠ q.next → d1b.load x = d.load x := by
        intro x h1 h2
        rw [ho1b x h2, ho1 x h1]
      have hfwd1 : ∀ x cx, d1b.load x = .ok cx → x.row = q.next.row → q.next.col ≤ x.col →
          x.col < rl ∧ (cx.overlapped_cells = [] ∨
            (cx.overlapped_cells = [x.next] ∧ ∃ t, d1b.load x.next = .ok t)) := by
        intro x cx hx hxr hxc
        simp only [next_row, next_col] at hxr hxc
        have hxq : x ≠ q := by
          intro h0; rw [h0] at hxc; omega
        have hnn : x.next ≠ q := by
          intro h0
          have := congrArg CellPtr.col h0
          simp only [next_col] at this
          omega
        have hnn2 : x.next ≠ q.next := by
          intro h0; exact hxq (next_inj h0)
        by_cases hxn : x = q.next
        · subst hxn
          rw [hl1b] at hx
          cases hx
          obtain ⟨h1, h2⟩ := hfwd q.next t ht rfl (by simp only [next_col]; omega)
          refine ⟨h1, ?_⟩
          rcases h2 with h3 | ⟨h3, t2, ht2⟩
          · exact Or.inl h3
          · exact Or.inr ⟨h3, t2, by rw [hsame _ hnn hnn2]; exact ht2⟩
        · rw [hsame x hxq hxn] at hx
          obtain ⟨h1, h2⟩ := hfwd x cx hx hxr (by omega)
          refine ⟨h1, ?_⟩
          rcases h2 with h3 | ⟨h3, t2, ht2⟩
          · exact Or.inl h3
          · exact Or.inr ⟨h3, t2, by rw [hsame _ hnn hnn2]; exact ht2⟩
      have hnextlt : q.next.col < rl := (hfwd q.next t ht rfl (by simp only [next_col]; omega)).1
      simp only [next_col] at hnextlt
      obtain ⟨d2, k, hreset2, hs2, hin2, hout2, hend2⟩ :=
        ih f q.next d1b _ rl hl1b rfl hfwd1 (by simp only [next_col]; omega) (by omega)
      simp only [next_row, next_col] at hin2 hout2 hend2
      have hq2 : d2.load q = .ok { c with contents := [] } := by
        rw [hout2 q (by intro h0; omega), ho1b q (fun h0 => next_ne q h0.symm), hl1]
      obtain ⟨d3, hm3, hs3, hl3, ho3⟩ :=
        modify_of_load (fun t => { t with overlapped_cells := [] }) hq2
      have hisSome : c.overlapping_cell.isSome = false := by rw [hnone]; rfl
      refine ⟨d3, k + 1, ?_, ?_, ?_, ?_, ?_⟩
      · simp only [Cell.reset, hc, hisSome, hm1, hov, Cell.reset_each, hm1b, hreset2, hm3]
        simp
      · exact hs3.trans (hs2.trans (hs1b.trans hs1))
      · intro x hxr hx1 hx2
        by_cases hxq : x = q
        · rw [hxq, hl3]
          simp only [Cell.new, hnone]
        · have hcol : q.col + 1 ≤ x.col := by
            rcases Nat.lt_or_ge q.col x.col with h1 | h1
            · exact h1
            · exact absurd (cellptr_eq x q hxr (by omega)) hxq
          rw [ho3 x hxq]
          exact hin2 x hxr hcol (by omega)
      · intro x hx
        have hxq : x ≠ q := by
          intro h0; apply hx; rw [h0]
          exact ⟨rfl, Nat.le_refl _, by omega⟩
        have hxn : x ≠ q.next := by
          intro h0; apply hx; rw [h0]
          exact ⟨rfl, by simp only [next_col]; omega, by simp only [next_col]; omega⟩
        rw [ho3 x hxq, hout2 x (by
          intro h0; apply hx
          exact ⟨h0.1, by omega, by omega⟩), hsame x hxq hxn]
      · obtain ⟨ce, hce, hce2⟩ := hend2
        have hptr : ({ row := q.row, col := q.col + (k + 1) } : CellPtr)
            = { row := q.row, col := q.col + 1 + k } := by
          have hk1 : q.col + (k + 1) = q.col + 1 + k := by omega
          rw [hk1]
        rw [hptr]
        by_cases hk : k = 0
        · subst hk
          have hp2 : ({ row := q.row, col := q.col + 1 + 0 } : CellPtr) = q.next := rfl
          rw [hp2] at hce ⊢
          rw [hl1b] at hce
          cases hce
          exact ⟨t, ht, hce2⟩
        · refine ⟨ce, ?_, hce2⟩
          rw [← hsame _ (by
            intro h0
            have := congrArg CellPtr.col h0
            simp only at this; omega) (by
            intro h0
            have := congrArg CellPtr.col h0
            simp only [next_col] at this; omega)]
          exact hce
theorem le_sum_of_mem : ∀ (l : List Nat) (x : Nat), x ∈ l → x ≤ l.sum := by
  intro l
  induction l with
  | nil => intro x hx; cases hx
  | cons a rest ih =>
    intro x hx
    rw [List.sum_cons]
    rcases List.mem_cons.1 hx with h | h
    · rw [h]; omega
    · have := ih x h; omega

theorem width_le_cell_count {d : Deque} {w : Nat} (hw : d.RowsWidth w) {p : CellPtr}
    {c : Cell} (h : d.load p = .ok c) : w ≤ d.cell_count := by
  obtain ⟨_, row, hrow, _⟩ := (load_eq_ok_iff d p c).1 h
  have hmem : row ∈ d.elems := List.getElem?_mem hrow
  unfold Deque.cell_count
  apply le_sum_of_mem
  rw [List.mem_map]
  exact ⟨row, hmem, hw row hmem⟩

/-- In a grid with the link invariant, what `reset()` returns on a cell that is not a
trailing cell with the recursion bound above the width. -/
theorem reset_leading_linksOK {d : Deque} {w fuel : Nat} {p : CellPtr} {c : Cell}
    (hw : d.RowsWidth w) (hok : d.LinksOK) (hc : d.load p = .ok c)
    (hnone : c.overlapping_cell = none) (hfuel : w < fuel) :
    ∃ d1, Cell.reset fuel p d = .ok d1 ∧ d1.shape = d.shape ∧ d1.LinksOK ∧
      d1.load p = .ok Cell.new := by
  have hfwd : ∀ x cx, d.load x = .ok cx → x.row = p.row → p.col ≤ x.col →
      x.col < w ∧ (cx.overlapped_cells = [] ∨
        (cx.overlapped_cells = [x.next] ∧ ∃ t, d.load x.next = .ok t)) := by
    intro x cx hx _ _
    refine ⟨load_col_lt hw hx, ?_⟩
    obtain ⟨a, b, _⟩ := hok x cx hx
    rcases a with a | a
    · exact Or.inl a
    · obtain ⟨t, ht, _⟩ := b a
      exact Or.inr ⟨a, t, ht⟩
  obtain ⟨d1, k, hreset, hs, hin, hout, ce, hce, hce2⟩ :=
    reset_chain (w - p.col) fuel p d c w hc hnone hfwd (Nat.le_refl _) (by omega)
  refine ⟨d1, hreset, hs, ?_, hin p rfl (Nat.le_refl _) (by omega)⟩
  intro x cx hx
  by_cases hch : x.row = p.row ∧ p.col ≤ x.col ∧ x.col ≤ p.col + k
  · rw [hin x hch.1 hch.2.1 hch.2.2] at hx
    cases hx
    refine ⟨Or.inl rfl, ?_, ?_⟩
    · intro habs; cases habs
    · intro L habs; cases habs
  · rw [hout x hch] at hx
    obtain ⟨a, b, c3⟩ := hok x cx hx
    refine ⟨a, ?_, ?_⟩
    · intro hov
      obtain ⟨t, ht, hto⟩ := b hov
      have hnch : ¬ (x.next.row = p.row ∧ p.col ≤ x.next.col ∧ x.next.col ≤ p.col + k) := by
        intro hn
        simp only [next_row, next_col] at hn
        have hxp : x.next = p := by
          apply cellptr_eq x.next p hn.1
          simp only [next_col]
          rcases Nat.lt_or_ge x.col p.col with h1 | h1
          · omega
          · exact absurd ⟨hn.1, h1, by omega⟩ hch
        rw [hxp, hc] at ht
        cases ht
        rw [hnone] at hto
        cases hto
      exact ⟨t, by rw [hout _ hnch]; exact ht, hto⟩
    · intro L hL
      obtain ⟨hn, l, hl1, hl2⟩ := c3 L hL
      have hLr : L.row = x.row := by rw [← hn]; rfl
      have hLc : L.col + 1 = x.col := by rw [← hn]; rfl
      have hnch : ¬ (L.row = p.row ∧ p.col ≤ L.col ∧ L.col ≤ p.col + k) := by
        intro hn2
        have hLend : L = { row := p.row, col := p.col + k } := by
          have hcolL : L.col = p.col + k := by
            rcases Nat.lt_or_ge L.col (p.col + k) with h1 | h1
            · exact absurd ⟨hLr.symm.trans hn2.1, by omega, by omega⟩ hch
            · omega
          exact cellptr_eq L { row := p.row, col := p.col + k } hn2.1 hcolL
        rw [hLend, hce] at hl1
        cases hl1
        rw [hce2] at hl2
        cases hl2
      exact ⟨hn, l, by rw [hout _ hnch]; exact hl1, hl2⟩

/-- In a grid with the link invariant, what a call of `reset()` that returns has done. -/
theorem reset_linksOK {d d1 : Deque} {w : Nat} {p : CellPtr} {c : Cell}
    (hw : d.RowsWidth w) (hok : d.LinksOK) (hc : d.load p = .ok c)
    (hreset : Cell.reset (d.cell_count + 1) p d = .ok d1) :
    d1.shape = d.shape ∧ d1.LinksOK ∧
      ∃ c1, d1.load p = .ok c1 ∧ c1.overlapped_cells = [] ∧ c1.contents = [] ∧
        c1.overlapping_cell = c.overlapping_cell := by
  cases hov : c.overlapping_cell with
  | none =>
    have hfu : w < d.cell_count + 1 := by
      have := width_le_cell_count hw hc; omega
    obtain ⟨d2, hr2, hs, hl, hp⟩ := reset_leading_linksOK hw hok hc hov hfu
    rw [hreset] at hr2
    cases hr2
    exact ⟨hs, hl, Cell.new, hp, rfl, rfl, rfl⟩
  | some L =>
    obtain ⟨cb, hcb, hcase⟩ := reset_succ_inv hreset
    rw [hc] at hcb
    cases hcb
    rcases hcase with ⟨_, hlen, hm⟩ | ⟨hs, _⟩
    · obtain ⟨c0, hc0, hs, hl, _⟩ := modify_spec hm
      rw [hc] at hc0
      cases hc0
      refine ⟨hs, linksOK_modify_contents hm (fun _ => ⟨rfl, rfl⟩) hok, _, hl, ?_, rfl, hov⟩
      exact List.length_eq_zero.1 hlen
    · rw [hov] at hs; cases hs

/-- Linking a cell that spans nothing to its right neighbour keeps the link invariant. -/
theorem link_linksOK {d2 d3 d4 : Deque} {this : CellPtr} {c : Cell}
    (hok : d2.LinksOK) (hthis : d2.load this = .ok c) (hov : c.overlapped_cells = [])
    (hm3 : d2.modify this
      (fun t => { t with overlapped_cells := t.overlapped_cells ++ [this.next] }) = .ok d3)
    (hm4 : d3.modify this.next (fun t => { t with overlapping_cell := some this }) = .ok d4) :
    d4.LinksOK := by
  obtain ⟨c0, hc0, hs3, hl3, ho3⟩ := modify_spec hm3
  rw [hthis] at hc0
  cases hc0
  obtain ⟨t, ht3, hs4, hl4, ho4⟩ := modify_spec hm4
  have ht : d2.load this.next = .ok t := by rw [← ho3 _ (next_ne this)]; exact ht3
  have hthis4 : d4.load this = .ok { c with overlapped_cells := [this.next] } := by
    rw [ho4 this (fun h => next_ne this h.symm), hl3, hov]
    rfl
  have hother : ∀ x : CellPtr, x ≠ this → x ≠ this.next → d4.load x = d2.load x := by
    intro x h1 h2
    rw [ho4 x h2, ho3 x h1]
  intro x cx hx
  by_cases hx1 : x = this
  · subst hx1
    rw [hthis4] at hx
    cases hx
    refine ⟨Or.inr rfl, fun _ => ⟨_, hl4, rfl⟩, ?_⟩
    intro L hL
    obtain ⟨hn, l, hl1, hl2⟩ := (hok x c hthis).2.2 L hL
    have hL1 : L ≠ x := by
      intro h0; rw [h0] at hn; exact next_ne x hn
    have hL2 : L ≠ x.next := by
      intro h0
      have := congrArg CellPtr.col hn
      rw [h0] at this
      simp only [next_col] at this
      omega
    exact ⟨hn, l, by rw [hother L hL1 hL2]; exact hl1, hl2⟩
  · by_cases hx2 : x = this.next
    · subst hx2
      rw [hl4] at hx
      cases hx
      obtain ⟨a, b, _⟩ := hok this.next t ht
      refine ⟨a, ?_, ?_⟩
      · intro h0
        obtain ⟨t2, ht2, hto⟩ := b h0
        have hn1 : this.next.next ≠ this := by
          intro h1
          have := congrArg CellPtr.col h1
          simp only [next_col] at this
          omega
        exact ⟨t2, by rw [hother _ hn1 (next_ne _)]; exact ht2, hto⟩
      · intro L hL
        simp only [Option.some.injEq] at hL
        subst hL
        exact ⟨rfl, _, hthis4, rfl⟩
    · rw [hother x hx1 hx2] at hx
      obtain ⟨a, b, c3⟩ := hok x cx hx
      refine ⟨a, ?_, ?_⟩
      · intro h0
        obtain ⟨t2, ht2, hto⟩ := b h0
        by_cases hn1 : x.next = this
        · rw [hn1] at ht2 ⊢
          rw [hthis] at ht2
          cases ht2
          exact ⟨_, hthis4, hto⟩
        · have hn2 : x.next ≠ this.next := fun h1 => hx1 (next_inj h1)
          exact ⟨t2, by rw [hother _ hn1 hn2]; exact ht2, hto⟩
      · intro L hL
        obtain ⟨hn, l, hl1, hl2⟩ := c3 L hL
        by_cases hL1 : L = this
        · rw [hL1, hthis] at hl1
          cases hl1
          rw [hov] at hl2
          cases hl2
        · by_cases hL2 : L = this.next
          · rw [hL2] at hl1 ⊢
            rw [ht] at hl1
            cases hl1
            exact ⟨by rw [← hL2]; exact hn, _, hl4, hl2⟩
          · exact ⟨hn, l, by rw [hother L hL1 hL2]; exact hl1, hl2⟩
theorem gridOK_new (w h : Nat) : (Emulator.new w h).GridOK w h := by
  refine ⟨rfl, rfl, by simp [Emulator.new], ?_, ?_⟩
  · intro row hrow
    simp only [Emulator.new, List.mem_replicate] at hrow
    rw [hrow.2]; simp [Row.new]
  · intro x cx hx
    obtain ⟨_, row, hrow, hc⟩ := (load_eq_ok_iff _ _ _).1 hx
    have hrow2 : row ∈ (Emulator.new w h).rows.elems := List.getElem?_mem hrow
    simp only [Emulator.new, List.mem_replicate] at hrow2
    have hc2 : cx ∈ row.cells := List.getElem?_mem hc
    rw [hrow2.2] at hc2
    simp only [Row.new, List.mem_replicate] at hc2
    rw [hc2.2]
    refine ⟨Or.inl rfl, ?_, ?_⟩
    · intro habs; cases habs
    · intro L habs; cases habs

theorem gridOK_of_rows {w h : Nat} {e e2 : Emulator} (hg : e.GridOK w h)
    (hw : e2.width = e.width) (hh : e2.height = e.height)
    (hs : e2.rows.shape = e.rows.shape) (hok : e2.rows.LinksOK) : e2.GridOK w h := by
  obtain ⟨a, b, c, d, _⟩ := hg
  exact ⟨hw.trans a, hh.trans b, (shape_length hs).trans c, rowsWidth_of_shape hs d, hok⟩

theorem print_base_ok {w h : Nat} {chw : Int} {ch : Nat} {e e3 : Emulator}
    (hp : e.print_base chw ch = .ok e3) (hg : e.GridOK w h) : e3.GridOK w h := by
  obtain ⟨e2, this, d1, d2, ha, haddr, hreset, hm2, hcase⟩ := print_base_inv hp
  have hg1 : Emulator.GridOK w h (if e.cursor_col ≥ (e.width : Int) then
      { e with cursor_col := 0, cursor_row := e.cursor_row + 1 } else e) := by
    split
    · exact hg
    · exact hg
  have hg2 : e2.GridOK w h := autoscroll_ok ha hg1
  obtain ⟨hr0, hc0, hthis, c, hc⟩ := addr_ok haddr
  obtain ⟨hs1, hok1, c1, hc1, hov1, hcn1, _⟩ := reset_linksOK hg2.2.2.2.1 hg2.2.2.2.2 hc hreset
  obtain ⟨c1b, hc1b, hs2, hl2, _⟩ := modify_spec hm2
  rw [hc1] at hc1b
  cases hc1b
  have hok2 : d2.LinksOK := linksOK_modify_contents hm2 (fun _ => ⟨rfl, rfl⟩) hok1
  rcases hcase with ⟨_, he⟩ | ⟨_, next, d3, d4, hnaddr, hm3, hm4, he⟩
  · subst he
    exact gridOK_of_rows hg2 rfl rfl (hs2.trans hs1) hok2
  · subst he
    obtain ⟨_, _, hs3, _, _⟩ := modify_spec hm3
    obtain ⟨_, _, hs4, _, _⟩ := modify_spec hm4
    obtain ⟨hr1, hc1', hnext, _⟩ := addr_ok hnaddr
    have hpop : d2.popped = e2.rows.popped := shape_popped (hs2.trans hs1)
    have hnn : next = this.next := by
      rw [hnext, hthis, hpop]
      have hcol : (e2.cursor_col + 1).toNat = e2.cursor_col.toNat + 1 := by omega
      rw [hcol]
      rfl
    rw [hnn] at hm3 hm4
    have hok4 : d4.LinksOK := link_linksOK hok2 hl2 hov1 hm3 hm4
    exact gridOK_of_rows hg2 rfl rfl (hs4.trans (hs3.trans (hs2.trans hs1))) hok4

theorem step_ok {wcwidth : Nat → Int} {w h : Nat} {s : Step} {e e2 : Emulator}
    (hstep : e.step wcwidth s = .ok e2) (hg : e.GridOK w h) : e2.GridOK w h := by
  cases s with
  | print act =>
    simp only [Emulator.step] at hstep
    rcases print_cases hstep with he | ⟨chw, _, _, _, _, hb⟩ | hc
    · subst he; exact hg
    · exact print_base_ok hb hg
    · rcases print_combining_inv hc with he | ⟨p, d, hm, he⟩
      · subst he; exact hg
      · subst he
        obtain ⟨_, _, hs, _, _⟩ := modify_spec hm
        exact gridOK_of_rows hg rfl rfl hs
          (linksOK_modify_contents hm (fun _ => ⟨rfl, rfl⟩) hg.2.2.2.2)
  | execute act =>
    simp only [Emulator.step] at hstep
    rcases execute_cases hstep with hlf | he | ⟨_, he⟩ | he
    · exact autoscroll_ok hlf hg
    · subst he; exact hg
    · subst he; exact hg
    · subst he; exact hg

theorem run_ops_ok {wcwidth : Nat → Int} {w h : Nat} : ∀ (ops : List Op) (e e2 : Emulator),
    Emulator.run_ops wcwidth ops e = .ok e2 → e.GridOK w h → e2.GridOK w h := by
  intro ops
  induction ops with
  | nil =>
    intro e e2 hrun hg
    simp only [Emulator.run_ops, Except.ok.injEq] at hrun
    subst hrun; exact hg
  | cons o rest ih =>
    intro e e2 hrun hg
    simp only [Emulator.run_ops] at hrun
    cases ho : e.apply_op wcwidth o with
    | error x => rw [ho] at hrun; cases hrun
    | ok e1 =>
      rw [ho] at hrun
      apply ih e1 e2 hrun
      cases o with
      | step s => exact step_ok ho hg
      | scroll N => exact scroll_ok ho hg

/-- C19. In every state a fresh emulator reaches by print, execute and scroll actions,
every pointer in an `overlapped_cells` is to the next column of the same row, inside the
grid; and `Cell::reset` on any cell, with a recursion bound above the grid width, never
exceeds the bound and never dereferences an invalid pointer: it returns, unless the cell
is both a trailing and a leading cell, where it stops at once at the assertion of line
336. -/
theorem reset_terminates_on_reachable (wcwidth : Nat → Int) (w h : Nat) (ops : List Op)
    (e : Emulator) (hrun : Emulator.run_ops wcwidth ops (Emulator.new w h) = .ok e) :
    ∀ p c, e.rows.load p = .ok c →
      (∀ q ∈ c.overlapped_cells, q = p.next ∧ q.col < w ∧ ∃ t, e.rows.load q = .ok t) ∧
      ∀ fuel, w < fuel →
        (∃ d, Cell.reset fuel p e.rows = .ok d) ∨
        (c.overlapping_cell ≠ none ∧ c.overlapped_cells ≠ [] ∧
          Cell.reset fuel p e.rows = .error (.assertion 336)) := by
  have hg := run_ops_ok ops _ e hrun (gridOK_new w h)
  obtain ⟨_, _, _, hw, hok⟩ := hg
  intro p c hc
  obtain ⟨a, b, _⟩ := hok p c hc
  constructor
  · intro q hq
    rcases a with a | a
    · rw [a] at hq; cases hq
    · rw [a] at hq
      simp only [List.mem_singleton] at hq
      obtain ⟨t, ht, _⟩ := b a
      rw [hq]
      exact ⟨rfl, load_col_lt hw ht, t, ht⟩
  · intro fuel hfuel
    cases hov : c.overlapping_cell with
    | none =>
      obtain ⟨d1, hr, _⟩ := reset_leading_linksOK hw hok hc hov hfuel
      exact Or.inl ⟨d1, hr⟩
    | some L =>
      obtain ⟨f, rfl⟩ : ∃ f, fuel = f + 1 := ⟨fuel - 1, by omega⟩
      have hs : c.overlapping_cell.isSome = true := by rw [hov]; rfl
      by_cases hl : c.overlapped_cells.length = 0
      · obtain ⟨d1, hm, _⟩ := modify_of_load (fun t => { t with contents := [] }) hc
        left
        refine ⟨d1, ?_⟩
        simp only [Cell.reset, hc, hs, hl, if_true, hm]
      · right
        refine ⟨by simp, ?_, ?_⟩
        · intro h0; rw [h0] at hl; exact hl rfl
        · simp only [Cell.reset, hc, hs, hl, if_true, if_false]

/-- C20. In every state a fresh emulator reaches by print, execute and scroll actions, for
cells `T` and `L` of the grid: `T.overlapping_cell == L` exactly when `T` is in
`L.overlapped_cells`, and then `T` is the cell right of `L` in the same row and
`L.overlapped_cells` has exactly one entry; the pointers stored in either member are to
cells of the grid. -/
theorem links_symmetric_and_local (wcwidth : Nat → Int) (w h : Nat) (ops : List Op)
    (e : Emulator) (hrun : Emulator.run_ops wcwidth ops (Emulator.new w h) = .ok e) :
    (∀ T L t l, e.rows.load T = .ok t → e.rows.load L = .ok l →
      (t.overlapping_cell = some L ↔ T ∈ l.overlapped_cells) ∧
      (T ∈ l.overlapped_cells →
        T.row = L.row ∧ T.col = L.col + 1 ∧ l.overlapped_cells.length = 1)) ∧
    (∀ T t L, e.rows.load T = .ok t → t.overlapping_cell = some L →
      ∃ l, e.rows.load L = .ok l) ∧
    (∀ L l T, e.rows.load L = .ok l → T ∈ l.overlapped_cells →
      ∃ t, e.rows.load T = .ok t) := by
  have hg := run_ops_ok ops _ e hrun (gridOK_new w h)
  obtain ⟨_, _, _, _, hok⟩ := hg
  have hmem : ∀ L l T, e.rows.load L = .ok l → T ∈ l.overlapped_cells →
      l.overlapped_cells = [L.next] ∧ T = L.next := by
    intro L l T hl hT
    rcases (hok L l hl).1 with a | a
    · rw [a] at hT; cases hT
    · rw [a] at hT
      simp only [List.mem_singleton] at hT
      exact ⟨a, hT⟩
  refine ⟨?_, ?_, ?_⟩
  · intro T L t l ht hl
    constructor
    · constructor
      · intro hov
        obtain ⟨_, l2, hl2, hl3⟩ := (hok T t ht).2.2 L hov
        rw [hl] at hl2
        cases hl2
        rw [hl3]
        exact List.mem_singleton_self T
      · intro hT
        obtain ⟨a, hTn⟩ := hmem L l T hl hT
        obtain ⟨t2, ht2, hto⟩ := (hok L l hl).2.1 a
        rw [← hTn, ht] at ht2
        cases ht2
        exact hto
    · intro hT
      obtain ⟨a, hTn⟩ := hmem L l T hl hT
      rw [hTn, a]
      exact ⟨rfl, rfl, rfl⟩
  · intro T t L ht hov
    obtain ⟨_, l, hl, _⟩ := (hok T t ht).2.2 L hov
    exact ⟨l, hl⟩
  · intro L l T hl hT
    obtain ⟨a, hTn⟩ := hmem L l T hl hT
    obtain ⟨t, ht, _⟩ := (hok L l hl).2.1 a
    rw [hTn]
    exact ⟨t, ht⟩

/-- The state a fresh 4x2 emulator reaches by `ops_sample`. -/
theorem reset_terminates_on_reachable_witness :
    ∃ e, Emulator.run_ops wcwidth_sample ops_sample (Emulator.new 4 2) = .ok e ∧
      ∀ p c, e.rows.load p = .ok c →
        (∀ q ∈ c.overlapped_cells, q = p.next ∧ q.col < 4 ∧ ∃ t, e.rows.load q = .ok t) ∧
        ∀ fuel, 4 < fuel →
          (∃ d, Cell.reset fuel p e.rows = .ok d) ∨
          (c.overlapping_cell ≠ none ∧ c.overlapped_cells ≠ [] ∧
            Cell.reset fuel p e.rows = .error (.assertion 336)) :=
  ⟨_, rfl, reset_terminates_on_reachable wcwidth_sample 4 2 ops_sample _ rfl⟩

/-- The state a fresh 4x2 emulator reaches by `ops_sample`. -/
theorem links_symmetric_and_local_witness :
    ∃ e, Emulator.run_ops wcwidth_sample ops_sample (Emulator.new 4 2) = .ok e ∧
      ((∀ T L t l, e.rows.load T = .ok t → e.rows.load L = .ok l →
        (t.overlapping_cell = some L ↔ T ∈ l.overlapped_cells) ∧
        (T ∈ l.overlapped_cells →
          T.row = L.row ∧ T.col = L.col + 1 ∧ l.overlapped_cells.length = 1)) ∧
      (∀ T t L, e.rows.load T = .ok t → t.overlapping_cell = some L →
        ∃ l, e.rows.load L = .ok l) ∧
      (∀ L l T, e.rows.load L = .ok l → T ∈ l.overlapped_cells →
        ∃ t, e.rows.load T = .ok t)) :=
  ⟨_, rfl, links_symmetric_and_local wcwidth_sample 4 2 ops_sample _ rfl⟩
end Terminal
